import Mathlib

/-!
# rambajz: the interactive loop of `src/rambajz.c`

A shallow embedding of `record`, `process`, `plot_interval` and `main`.

The source computes the viewport in C `double`. The embedding has two readings of that
arithmetic.

* Exact arithmetic (namespace `Rambajz`). A `double` is an element of a linearly ordered
  field `α`; no operation rounds or overflows, `fmin`/`fmax` are `min`/`max`, and there is no
  NaN, so the initial value `{NAN, NAN}` of the statics of `process` is the state `none`.
  This reading carries the statements that do not depend on rounding: `record`, the order of
  the operations on a wheel event, and the absence of a check of the sample rate. It is also
  the reference the binary64 results are compared with.
* Binary64 (namespace `Rambajz.B64`). A `double` is a value of `Dbl`: a finite double is the
  rational it denotes, every operation rounds to nearest, ties to even, with 53 significant
  bits, overflow gives an infinity, and NaN is a value that `isnan`, `fmin` and `fmax` treat
  as C does. Every statement about the values the viewport takes is made in this reading.

Common conventions.

* `exp` and `log` are the parameters `expf` and `logf`. The exact reading instantiates them
  with `Real.exp` and `Real.log`. In binary64 the general theorems assume of `expf` only
  that it returns no negative value, and the examples use the values glibc returns
  (`libm_exp`, `libm_log`).
* Calls into SDL and JACK are inputs: the events returned by `SDL_PollEvent`
  together with the value `SDL_GetModState()` has when each one is handled.
* The numeric values of the SDL constants are those of the SDL2 headers.
-/

namespace Rambajz

/-! ## SDL constants (SDL2 headers) -/

abbrev SDL_QUIT : Nat := 0x100
abbrev SDL_WINDOWEVENT : Nat := 0x200
abbrev SDL_KEYDOWN : Nat := 0x300
abbrev SDL_MOUSEWHEEL : Nat := 0x403

abbrev SDL_WINDOWEVENT_RESIZED : Nat := 5
abbrev SDL_WINDOWEVENT_SIZE_CHANGED : Nat := 6

abbrev SDL_SCANCODE_H : Nat := 11
abbrev SDL_SCANCODE_J : Nat := 13
abbrev SDL_SCANCODE_K : Nat := 14
abbrev SDL_SCANCODE_L : Nat := 15

abbrev KMOD_SHIFT : Nat := 0x0003
abbrev KMOD_CTRL : Nat := 0x00C0
abbrev KMOD_ALT : Nat := 0x0300
abbrev KMOD_GUI : Nat := 0x0C00
abbrev KMOD_MODE : Nat := 0x4000

/-! ## Data -/

/-- The fields of `SDL_Event` that `process` reads: `ev.type`, `ev.window.event`,
`ev.window.data1`, `ev.window.data2`, `ev.key.keysym.scancode`, `ev.wheel.x`, `ev.wheel.y`. -/
structure SDL_Event where
  type : Nat
  window_event : Nat
  window_data1 : Int
  window_data2 : Int
  scancode : Nat
  wheel_x : Int
  wheel_y : Int
deriving DecidableEq

/-- One iteration's input: the event `SDL_PollEvent` delivered and the value
`SDL_GetModState()` returns while it is handled. -/
structure polled where
  ev : SDL_Event
  modstate : Nat
deriving DecidableEq

/-- The global `sdl_state`, restricted to the window size `w`, `h`. -/
structure sdl_state_t where
  w : Int
  h : Int
deriving DecidableEq

/-- The local type `struct viewport_t` of `process`. -/
structure viewport_t (α : Type) where
  A : α
  B : α
deriving DecidableEq

/-- The two function-static variables `viewport` and `limits` of `process`, once initialised. -/
structure statics_t (α : Type) where
  viewport : viewport_t α
  limits : viewport_t α
deriving DecidableEq

/-- The fields `min_freq`, `max_freq` of `struct analysis_params` that `process` sets. -/
structure analysis_params (α : Type) where
  min_freq : α
  max_freq : α
deriving DecidableEq

/-- The rectangle handed to `SDL_RenderFillRect`. -/
structure SDL_Rect where
  x : Int
  y : Int
  w : Int
  h : Int
deriving DecidableEq

/-- State threaded through the `while (SDL_PollEvent(&ev))` loop. -/
structure loop_state (α : Type) where
  statics : statics_t α
  sdl : sdl_state_t
deriving DecidableEq

/-- What one call of `process` leaves behind: the return value, the statics, `sdl_state`,
and the parameters handed to `analyse` (`none` when `analyse` is not reached). -/
structure process_result (α : Type) where
  ret : Bool
  statics : statics_t α
  sdl : sdl_state_t
  analysed : Option (analysis_params α)
deriving DecidableEq

/-- State of `main`: statics of `process` (`none` before the first call), `sdl_state`,
and the ranges passed to `analyse` so far, oldest first. -/
structure main_state (α : Type) where
  statics : Option (statics_t α)
  sdl : sdl_state_t
  analysed : List (analysis_params α)
deriving DecidableEq

section Process

variable {α : Type} [LinearOrderedField α]

/-- The constant `blacklist` of `process` (line 60). -/
def blacklist : Nat := KMOD_MODE ||| KMOD_CTRL ||| KMOD_SHIFT ||| KMOD_ALT ||| KMOD_GUI

/-- The constants `zoom`, `shift`, `xf`, `yf` of `process`. -/
def zoom : α := 2
def shift : α := 1 / 4
def xf : α := 1 / 32
def yf : α := 1 / 8

/-- Lines 64-84: the `SDL_KEYDOWN` branch, acting on `(center, width)`. -/
def key_switch (key : Nat) (center width : α) : α × α :=
  if key = SDL_SCANCODE_J then (center, width / zoom)
  else if key = SDL_SCANCODE_K then (center, width * zoom)
  else if key = SDL_SCANCODE_H then (center - width * shift, width)
  else if key = SDL_SCANCODE_L then (center + width * shift, width)
  else (center, width)

/-- Lines 86-93: the `SDL_MOUSEWHEEL` branch, acting on `(center, width)`. -/
def wheel_update (expf : α → α) (wx wy : Int) (center width : α) : α × α :=
  let x : α := ((-wx : Int) : α) * xf
  let y : α := ((-wy : Int) : α) * yf
  let center := center + width * x
  let width := width * expf y
  (center, width)

/-- Lines 95-98 without rounding: clamp the width, clamp the centre, write the viewport back.
The rounded counterpart is `B64.recentre`. -/
def recentre (limits : viewport_t α) (center width : α) : viewport_t α :=
  let width := min width (limits.B - limits.A)
  let center := max (min center (limits.B - width / 2)) (limits.A + width / 2)
  { A := center - width / 2, B := center + width / 2 }

/-- One iteration of the body of `while (SDL_PollEvent(&ev))` (lines 52-98), without rounding.
The first component is `false` when the body executes `return false`. The rounded counterpart
is `B64.loop_body`. -/
def loop_body (expf : α → α) (s : loop_state α) (p : polled) : Bool × loop_state α :=
  let ev := p.ev
  if ev.type = SDL_QUIT then (false, s)
  else
    let sdl : sdl_state_t :=
      if ev.type = SDL_WINDOWEVENT then
        if ev.window_event = SDL_WINDOWEVENT_RESIZED ∨
            ev.window_event = SDL_WINDOWEVENT_SIZE_CHANGED then
          { w := ev.window_data1, h := ev.window_data2 }
        else s.sdl
      else s.sdl
    let modstate := p.modstate
    let viewport := s.statics.viewport
    let limits := s.statics.limits
    let center : α := (viewport.A + viewport.B) / 2
    let width : α := viewport.B - viewport.A
    let cw : α × α :=
      if ev.type = SDL_KEYDOWN ∧ (modstate &&& blacklist) = 0 then
        key_switch ev.scancode center width
      else (center, width)
    let cw : α × α :=
      if ev.type = SDL_MOUSEWHEEL then wheel_update expf ev.wheel_x ev.wheel_y cw.1 cw.2
      else cw
    (true, { statics := { viewport := recentre limits cw.1 cw.2, limits := limits }, sdl := sdl })

/-- The loop `while (SDL_PollEvent(&ev))` over the events pending in this call. -/
def poll_loop (expf : α → α) : loop_state α → List polled → Bool × loop_state α
  | s, [] => (true, s)
  | s, p :: rest =>
    match loop_body expf s p with
    | (false, s') => (false, s')
    | (true, s') => poll_loop expf s' rest

/-- Modelled from the spec: the declaration of `jack_state.sample_rate` (jack.h) is missing;
the spec says the upper limit is half the input sample rate, so the field is a real quantity
and `/` is exact division. Line 39. -/
def max_freq_of (sample_rate : α) : α := sample_rate / 2

/-- Lines 38-48: the lazy initialisation of the statics. An ordered field has no NaN: the
statics before the first call are `none`. The test `isnan(viewport.A)` on the stored double
is that of `B64.lazy_reset`. -/
def lazy_reset (logf : α → α) (sample_rate : α) : Option (statics_t α) → statics_t α
  | none =>
    let min_freq : α := 20
    let max_freq : α := max_freq_of sample_rate
    { viewport := { A := logf min_freq, B := logf max_freq },
      limits := { A := logf min_freq, B := logf max_freq } }
  | some st => st

/-- The function `process` (lines 36-113). `pending` are the events `SDL_PollEvent` delivers
during this call. The outcome of `analyse` does not influence the statics or the return value. -/
def process (expf logf : α → α) (sample_rate : α) (statics : Option (statics_t α))
    (sdl : sdl_state_t) (pending : List polled) : process_result α :=
  let st := lazy_reset logf sample_rate statics
  match poll_loop expf { statics := st, sdl := sdl } pending with
  | (false, s) => { ret := false, statics := s.statics, sdl := s.sdl, analysed := none }
  | (true, s) =>
    { ret := true, statics := s.statics, sdl := s.sdl,
      analysed := some { min_freq := expf s.statics.viewport.A,
                         max_freq := expf s.statics.viewport.B } }

/-- The loop `while (process(&buf));` of `main`: `calls` lists, for each call of `process`,
the events pending during it. The loop ends with the first call that returns `false`. -/
def main_loop (expf logf : α → α) (sample_rate : α) :
    main_state α → List (List polled) → main_state α
  | m, [] => m
  | m, pending :: rest =>
    let r := process expf logf sample_rate m.statics m.sdl pending
    let m' : main_state α :=
      { statics := some r.statics, sdl := r.sdl, analysed := m.analysed ++ r.analysed.toList }
    if r.ret then main_loop expf logf sample_rate m' rest else m'

/-- The function `main` (lines 153-164). The initialisation calls `sdl_init`, `jack_init_client`,
`jack_setup`, `jack_connect_ports` are external; what is kept of them is the window size and
the sample rate they leave in `sdl_state` and `jack_state` when they return. -/
def main (expf logf : α → α) (sample_rate : α) (sdl : sdl_state_t)
    (calls : List (List polled)) : main_state α :=
  main_loop expf logf sample_rate { statics := none, sdl := sdl, analysed := [] } calls

end Process

/-! ## `record` -/

section Record

variable {α β : Type} [Zero α]

/-- What a call of `record` leaves behind: the buffer after `buffer_push`, the contents of the
output port buffer, and the return value. -/
structure record_result (α β : Type) where
  buf : β
  out : List α
  ret : Int

/-- Lines 22-23: `for (i = 0; i < nframes; i++) in_double[i] = in[i];`.
The conversion from `jack_default_audio_sample_t` to `double` keeps the value. -/
def copy_loop (nframes : Nat) (inp in_double : List α) : List α :=
  (List.range nframes).foldl (fun acc i => acc.set i (inp.getD i 0)) in_double

/-- Lines 27-28: `for (i = 0; i < nframes; i++) out[i] = 0;`. -/
def silence_loop (nframes : Nat) (out : List α) : List α :=
  (List.range nframes).foldl (fun acc i => acc.set i 0) out

/-- The function `record` (lines 15-31). `buffer_push` (buffer.h) is a parameter; `inp` and `out`
are the contents of the port buffers `jack_port_get_buffer` returns, `in_double` the contents
of the local array before the first loop. -/
def record (buffer_push : β → List α → Nat → β) (nframes : Nat) (buf : β)
    (inp out in_double : List α) : record_result α β :=
  let in_double := copy_loop nframes inp in_double
  let buf := buffer_push buf in_double nframes
  let out := silence_loop nframes out
  { buf := buf, out := out, ret := 0 }

/-- A buffer that only logs the calls of `buffer_push` made on it: samples and count. -/
def log_push (log : List (List α × Nat)) (samples : List α) (count : Nat) :
    List (List α × Nat) :=
  log ++ [(samples, count)]

end Record

/-! ## Predicates used in the statements -/

section Statements

variable {α : Type} [LinearOrderedField α]

/-- The viewport lies inside the limits: `limits.A ≤ A ≤ B ≤ limits.B`. -/
def contained (st : statics_t α) : Prop :=
  st.limits.A ≤ st.viewport.A ∧ st.viewport.A ≤ st.viewport.B ∧ st.viewport.B ≤ st.limits.B

/-- None of the ctrl/shift/alt/gui/mode modifiers is active in `modstate`. -/
def no_modifier (modstate : Nat) : Prop :=
  modstate &&& KMOD_CTRL = 0 ∧ modstate &&& KMOD_SHIFT = 0 ∧ modstate &&& KMOD_ALT = 0 ∧
    modstate &&& KMOD_GUI = 0 ∧ modstate &&& KMOD_MODE = 0

/-- The event is a key press of scancode `key` handled while no modifier is active. -/
def unmodified_key (p : polled) (key : Nat) : Prop :=
  p.ev.type = SDL_KEYDOWN ∧ no_modifier p.modstate ∧ p.ev.scancode = key

instance (m : Nat) : Decidable (no_modifier m) := by
  unfold no_modifier
  infer_instance

/-- The state of the loop right after the lazy reset, in a window of 640 x 480. -/
def reset_state (logf : α → α) (sample_rate : α) : loop_state α :=
  { statics := lazy_reset logf sample_rate none, sdl := { w := 640, h := 480 } }

/-- A key press of the given scancode with the given modifier state. -/
def key_press (scancode modstate : Nat) : polled :=
  { ev := { type := SDL_KEYDOWN, window_event := 0, window_data1 := 0, window_data2 := 0,
            scancode := scancode, wheel_x := 0, wheel_y := 0 },
    modstate := modstate }

/-- A wheel event `(dx, dy)`. -/
def wheel (dx dy : Int) : polled :=
  { ev := { type := SDL_MOUSEWHEEL, window_event := 0, window_data1 := 0, window_data2 := 0,
            scancode := 0, wheel_x := dx, wheel_y := dy },
    modstate := 0 }

/-- Centre and width of a viewport, as computed on lines 62-63. -/
def centre_of (v : viewport_t α) : α := (v.A + v.B) / 2
def width_of (v : viewport_t α) : α := v.B - v.A

/-- The wheel operation in the words of the specification, not of the code: with
`x_sensitivity = 1/32` and `y_sensitivity = 1/8`, the width is first updated to
`w' = w * exp (dy * y_sensitivity)`, the centre is then updated to
`c + w' * (-dx * x_sensitivity)`, and then the clamp of lines 95-98 is applied. -/
def apply_wheel_spec (expf : α → α) (st : statics_t α) (dx dy : Int) : viewport_t α :=
  let c := centre_of st.viewport
  let w := width_of st.viewport
  let w' := w * expf ((dy : α) * (1 / 8))
  let c' := c + w' * (-(dx : α) * (1 / 32))
  recentre st.limits c' w'

end Statements

/-! ## Binary64 arithmetic

The source computes in C `double`. The definitions of this section model IEEE 754 binary64
with round-to-nearest, ties-to-even: a finite double is the rational it denotes, every
operation computes the exact rational result and rounds it, results of magnitude `2 ^ 1024`
or more become an infinity, and NaN is a value. The two zeros are identified. -/

namespace B64

/-- The rational `2 ^ e`. -/
def pow2 (e : Int) : ℚ :=
  if 0 ≤ e then ((2 ^ e.toNat : Nat) : ℚ) else 1 / ((2 ^ (-e).toNat : Nat) : ℚ)

/-- Halving `n` until it is below 2, at most `fuel` times, counting the steps. -/
def log2_steps : Nat → Nat → Nat
  | 0, _ => 0
  | fuel + 1, n => if n < 2 then 0 else log2_steps fuel (n / 2) + 1

/-- For `n ≠ 0`, the natural number `k` with `2 ^ k ≤ n < 2 ^ (k + 1)`. -/
def nlog2 (n : Nat) : Nat := log2_steps n n

/-- For `q ≠ 0`, the integer `k` with `2 ^ k ≤ |q| < 2 ^ (k + 1)`. -/
def ilog2 (q : ℚ) : Int :=
  if q.den * 2 ^ nlog2 q.num.natAbs ≤ q.num.natAbs * 2 ^ nlog2 q.den then
    (nlog2 q.num.natAbs : Int) - (nlog2 q.den : Int)
  else (nlog2 q.num.natAbs : Int) - (nlog2 q.den : Int) - 1

/-- The nearest integer, halfway cases to the even neighbour. -/
def round_even (r : ℚ) : Int :=
  if r - ⌊r⌋ < 1 / 2 then ⌊r⌋
  else if 1 / 2 < r - ⌊r⌋ then ⌊r⌋ + 1
  else if ⌊r⌋ % 2 = 0 then ⌊r⌋ else ⌊r⌋ + 1

/-- The exponent of the unit in the last place of the binary64 numbers around `q`:
53 significant bits, and no exponent below that of the subnormal numbers. -/
def expo (q : ℚ) : Int := max (ilog2 q - 52) (-1074)

/-- Rounding to the nearest binary64 number, exponent range unbounded above. -/
def fl (q : ℚ) : ℚ :=
  if q = 0 then 0 else (round_even (q / pow2 (expo q)) : ℚ) * pow2 (expo q)

/-- A C `double`. -/
inductive Dbl where
  | fin (q : ℚ)
  | pinf
  | ninf
  | nan
deriving DecidableEq

/-- The binary64 result of an operation whose exact result is `q`. -/
def round64 (q : ℚ) : Dbl :=
  if pow2 1024 ≤ fl q then Dbl.pinf
  else if fl q ≤ -pow2 1024 then Dbl.ninf
  else Dbl.fin (fl q)

/-- The infinity of the sign of `q`; NaN for `q = 0`, as in `0 * inf`. -/
def inf_of_sign (q : ℚ) : Dbl :=
  if q = 0 then Dbl.nan else if 0 < q then Dbl.pinf else Dbl.ninf

/-- Unary minus. -/
def Dbl.neg : Dbl → Dbl
  | .fin q => .fin (-q)
  | .pinf => .ninf
  | .ninf => .pinf
  | .nan => .nan

/-- The operator `+` on doubles. -/
def Dbl.add : Dbl → Dbl → Dbl
  | .fin a, .fin b => round64 (a + b)
  | .fin _, .pinf => .pinf
  | .fin _, .ninf => .ninf
  | .pinf, .fin _ => .pinf
  | .pinf, .pinf => .pinf
  | .ninf, .fin _ => .ninf
  | .ninf, .ninf => .ninf
  | _, _ => .nan

/-- The operator `-` on doubles. -/
def Dbl.sub (x y : Dbl) : Dbl := Dbl.add x (Dbl.neg y)

/-- The operator `*` on doubles. -/
def Dbl.mul : Dbl → Dbl → Dbl
  | .fin a, .fin b => round64 (a * b)
  | .fin a, .pinf => inf_of_sign a
  | .fin a, .ninf => inf_of_sign (-a)
  | .pinf, .fin b => inf_of_sign b
  | .ninf, .fin b => inf_of_sign (-b)
  | .pinf, .pinf => .pinf
  | .ninf, .ninf => .pinf
  | .pinf, .ninf => .ninf
  | .ninf, .pinf => .ninf
  | _, _ => .nan

/-- The operator `/` on doubles (a zero divisor counts as `+0`). -/
def Dbl.div : Dbl → Dbl → Dbl
  | .fin a, .fin b => if b = 0 then inf_of_sign a else round64 (a / b)
  | .fin _, .pinf => .fin 0
  | .fin _, .ninf => .fin 0
  | .pinf, .fin b => if 0 ≤ b then .pinf else .ninf
  | .ninf, .fin b => if 0 ≤ b then .ninf else .pinf
  | _, _ => .nan

/-- The comparison `<` on doubles: false as soon as one side is NaN. -/
def Dbl.blt : Dbl → Dbl → Bool
  | .fin a, .fin b => decide (a < b)
  | .fin _, .pinf => true
  | .ninf, .fin _ => true
  | .ninf, .pinf => true
  | _, _ => false

/-- The comparison `<=` on doubles: false as soon as one side is NaN. -/
def Dbl.ble : Dbl → Dbl → Bool
  | .fin a, .fin b => decide (a ≤ b)
  | .fin _, .pinf => true
  | .ninf, .fin _ => true
  | .ninf, .pinf => true
  | .pinf, .pinf => true
  | .ninf, .ninf => true
  | _, _ => false

/-- The macro `isnan`. -/
def Dbl.isnan : Dbl → Bool
  | .nan => true
  | _ => false

/-- The C library function `fmin`: a NaN argument is ignored. -/
def fmin (x y : Dbl) : Dbl :=
  if x.isnan then y else if y.isnan then x else if Dbl.blt y x then y else x

/-- The C library function `fmax`: a NaN argument is ignored. -/
def fmax (x y : Dbl) : Dbl :=
  if x.isnan then y else if y.isnan then x else if Dbl.blt x y then y else x

/-- Conversion of an `int` to `double`. -/
def Dbl.ofInt (i : Int) : Dbl := round64 (i : ℚ)

/-- The C library function `round` on a finite value: the nearest integer, halfway cases away
from zero. -/
def round_away (q : ℚ) : Int :=
  if 0 ≤ q then ⌊q + 1 / 2⌋ else -⌊-q + 1 / 2⌋

/-- The C library function `round`. -/
def c_round : Dbl → Dbl
  | .fin q => .fin (round_away q)
  | x => x

/-- Conversion of a `double` to a 32-bit `int`: truncation toward zero; `none` where C leaves
the conversion undefined (NaN, infinities, values that do not fit). -/
def to_int : Dbl → Option Int
  | .fin q =>
    let t : Int := if 0 ≤ q then ⌊q⌋ else -⌊-q⌋
    if -2 ^ 31 ≤ t ∧ t < 2 ^ 31 then some t else none
  | _ => none

/-- A 32-bit `int` result: `none` where the exact result does not fit. -/
def int32 (i : Int) : Option Int :=
  if -2 ^ 31 ≤ i ∧ i < 2 ^ 31 then some i else none

/-! ### `process` in binary64 -/

/-- The constants `zoom` (`2`), `shift` (`1/4.`), `xf` (`1/32.`) and `yf` (`1/8.`). -/
def zoom : Dbl := Dbl.ofInt 2
def shift : Dbl := Dbl.div (Dbl.ofInt 1) (Dbl.fin 4)
def xf : Dbl := Dbl.div (Dbl.ofInt 1) (Dbl.fin 32)
def yf : Dbl := Dbl.div (Dbl.ofInt 1) (Dbl.fin 8)

/-- Lines 62-63: `center` and `width` of the stored viewport. -/
def center_of (v : viewport_t Dbl) : Dbl := Dbl.div (Dbl.add v.A v.B) (Dbl.ofInt 2)
def width_of (v : viewport_t Dbl) : Dbl := Dbl.sub v.B v.A

/-- Lines 64-84: the `SDL_KEYDOWN` branch, acting on `(center, width)`. -/
def key_switch (key : Nat) (center width : Dbl) : Dbl × Dbl :=
  if key = SDL_SCANCODE_J then (center, Dbl.div width zoom)
  else if key = SDL_SCANCODE_K then (center, Dbl.mul width zoom)
  else if key = SDL_SCANCODE_H then (Dbl.sub center (Dbl.mul width shift), width)
  else if key = SDL_SCANCODE_L then (Dbl.add center (Dbl.mul width shift), width)
  else (center, width)

/-- Lines 86-93: the `SDL_MOUSEWHEEL` branch, acting on `(center, width)`. -/
def wheel_update (expf : Dbl → Dbl) (wx wy : Int) (center width : Dbl) : Dbl × Dbl :=
  let x := Dbl.mul (Dbl.ofInt (-wx)) xf
  let y := Dbl.mul (Dbl.ofInt (-wy)) yf
  let center := Dbl.add center (Dbl.mul width x)
  let width := Dbl.mul width (expf y)
  (center, width)

/-- Lines 95-98: clamp the width, clamp the centre, write the viewport back. -/
def recentre (limits : viewport_t Dbl) (center width : Dbl) : viewport_t Dbl :=
  let width := fmin width (Dbl.sub limits.B limits.A)
  let center := fmax (fmin center (Dbl.sub limits.B (Dbl.div width (Dbl.ofInt 2))))
    (Dbl.add limits.A (Dbl.div width (Dbl.ofInt 2)))
  { A := Dbl.sub center (Dbl.div width (Dbl.ofInt 2)),
    B := Dbl.add center (Dbl.div width (Dbl.ofInt 2)) }

/-- One iteration of the body of `while (SDL_PollEvent(&ev))` (lines 52-98).
The first component is `false` when the body executes `return false`. -/
def loop_body (expf : Dbl → Dbl) (s : loop_state Dbl) (p : polled) : Bool × loop_state Dbl :=
  let ev := p.ev
  if ev.type = SDL_QUIT then (false, s)
  else
    let sdl : sdl_state_t :=
      if ev.type = SDL_WINDOWEVENT then
        if ev.window_event = SDL_WINDOWEVENT_RESIZED ∨
            ev.window_event = SDL_WINDOWEVENT_SIZE_CHANGED then
          { w := ev.window_data1, h := ev.window_data2 }
        else s.sdl
      else s.sdl
    let modstate := p.modstate
    let viewport := s.statics.viewport
    let limits := s.statics.limits
    let center : Dbl := center_of viewport
    let width : Dbl := width_of viewport
    let cw : Dbl × Dbl :=
      if ev.type = SDL_KEYDOWN ∧ (modstate &&& blacklist) = 0 then
        key_switch ev.scancode center width
      else (center, width)
    let cw : Dbl × Dbl :=
      if ev.type = SDL_MOUSEWHEEL then wheel_update expf ev.wheel_x ev.wheel_y cw.1 cw.2
      else cw
    (true, { statics := { viewport := recentre limits cw.1 cw.2, limits := limits }, sdl := sdl })

/-- The loop `while (SDL_PollEvent(&ev))` over the events pending in this call. -/
def poll_loop (expf : Dbl → Dbl) : loop_state Dbl → List polled → Bool × loop_state Dbl
  | s, [] => (true, s)
  | s, p :: rest =>
    match loop_body expf s p with
    | (false, s') => (false, s')
    | (true, s') => poll_loop expf s' rest

/-- The initial value `{NAN, NAN}` of the statics `viewport` and `limits` (line 44). -/
def statics_init : statics_t Dbl :=
  { viewport := { A := Dbl.nan, B := Dbl.nan }, limits := { A := Dbl.nan, B := Dbl.nan } }

/-- Modelled from the spec: the declaration of `jack_state.sample_rate` (jack.h) is missing;
the spec says the upper limit is half the input sample rate, so the field is a `double` and `/`
is the division of doubles. Line 39. -/
def max_freq_of (sample_rate : Dbl) : Dbl := Dbl.div sample_rate (Dbl.ofInt 2)

/-- Lines 38-48: the lazy initialisation of the statics, guarded by `isnan(viewport.A)`. -/
def lazy_reset (logf : Dbl → Dbl) (sample_rate : Dbl) (st : statics_t Dbl) : statics_t Dbl :=
  let min_freq : Dbl := Dbl.ofInt 20
  let max_freq : Dbl := max_freq_of sample_rate
  if st.viewport.A.isnan then
    { viewport := { A := logf min_freq, B := logf max_freq },
      limits := { A := logf min_freq, B := logf max_freq } }
  else st

/-- The function `process` (lines 36-113). `pending` are the events `SDL_PollEvent` delivers
during this call. The outcome of `analyse` does not influence the statics or the return value. -/
def process (expf logf : Dbl → Dbl) (sample_rate : Dbl) (statics : statics_t Dbl)
    (sdl : sdl_state_t) (pending : List polled) : process_result Dbl :=
  let st := lazy_reset logf sample_rate statics
  match poll_loop expf { statics := st, sdl := sdl } pending with
  | (false, s) => { ret := false, statics := s.statics, sdl := s.sdl, analysed := none }
  | (true, s) =>
    { ret := true, statics := s.statics, sdl := s.sdl,
      analysed := some { min_freq := expf s.statics.viewport.A,
                         max_freq := expf s.statics.viewport.B } }

/-- State of `main`: the statics of `process`, `sdl_state`, and the ranges passed to `analyse`
so far, oldest first. -/
structure main_state where
  statics : statics_t Dbl
  sdl : sdl_state_t
  analysed : List (analysis_params Dbl)

/-- The loop `while (process(&buf));` of `main`: `calls` lists, for each call of `process`,
the events pending during it. The loop ends with the first call that returns `false`. -/
def main_loop (expf logf : Dbl → Dbl) (sample_rate : Dbl) :
    main_state → List (List polled) → main_state
  | m, [] => m
  | m, pending :: rest =>
    let r := process expf logf sample_rate m.statics m.sdl pending
    let m' : main_state :=
      { statics := r.statics, sdl := r.sdl, analysed := m.analysed ++ r.analysed.toList }
    if r.ret then main_loop expf logf sample_rate m' rest else m'

/-- The function `main` (lines 153-164). The initialisation calls `sdl_init`, `jack_init_client`,
`jack_setup`, `jack_connect_ports` are external; what is kept of them is the window size and
the sample rate they leave in `sdl_state` and `jack_state` when they return. -/
def main (expf logf : Dbl → Dbl) (sample_rate : Dbl) (sdl : sdl_state_t)
    (calls : List (List polled)) : main_state :=
  main_loop expf logf sample_rate { statics := statics_init, sdl := sdl, analysed := [] } calls

/-! ### `plot_interval` in binary64 -/

/-- What a call of `plot_interval` does: return early, call `SDL_RenderFillRect` once with a
rectangle, or run into a conversion or an `int` operation that C leaves undefined. -/
inductive plot_result where
  | skipped
  | drawn (rect : SDL_Rect)
  | undefined
deriving DecidableEq

/-- The function `plot_interval` (lines 115-128); `sdl_state.w` and `sdl_state.h` are `int`.
The `int` constants 0 and 1 and the two sizes are converted to `double` where they meet a
`double`; `rect.h`, `rect.x` and `rect.w` are assigned from a `double` (on line 125 the
difference of `round(...)` and `rect.x` is taken in `double`), `rect.y` from an `int`
subtraction. -/
def plot_interval (sdl : sdl_state_t) (x0 x1 y : Dbl) : plot_result :=
  let x0 := fmin (Dbl.ofInt 1) (fmax (Dbl.ofInt 0) x0)
  let x1 := fmin (Dbl.ofInt 1) (fmax (Dbl.ofInt 0) x1)
  if (Dbl.ble x0 (Dbl.ofInt 0) ∧ Dbl.ble x1 (Dbl.ofInt 0)) ∨
      (Dbl.ble (Dbl.ofInt 1) x0 ∧ Dbl.ble (Dbl.ofInt 1) x1) then plot_result.skipped
  else
    match to_int (c_round (Dbl.mul (Dbl.ofInt sdl.h) y)) with
    | none => plot_result.undefined
    | some rect_h =>
      match int32 (sdl.h - rect_h) with
      | none => plot_result.undefined
      | some rect_y =>
        match to_int (c_round (Dbl.mul (Dbl.ofInt sdl.w) x0)) with
        | none => plot_result.undefined
        | some rect_x =>
          match to_int (Dbl.sub (c_round (Dbl.mul (Dbl.ofInt sdl.w) x1)) (Dbl.ofInt rect_x)) with
          | none => plot_result.undefined
          | some rect_w =>
            let rect_w : Int := if rect_w ≤ 0 then 1 else rect_w
            plot_result.drawn { x := rect_x, y := rect_y, w := rect_w, h := rect_h }

/-! ### Values of the C library used in the examples -/

/-- The values glibc's `log` returns in binary64 at 20 and at 24000 (the arguments `process`
passes at a sample rate of 48 kHz): `0x1.7f7427b73e391p+1` and `0x1.42bef2bec8b0ep+3`; and at
0 (the second argument at a sample rate of 0): `-inf`. Other arguments are outside the table
(NaN). -/
def libm_log (x : Dbl) : Dbl :=
  if x = Dbl.fin 20 then Dbl.fin (0x17f7427b73e391 / 2 ^ 51)
  else if x = Dbl.fin 24000 then Dbl.fin (0x142bef2bec8b0e / 2 ^ 49)
  else if x = Dbl.fin 0 then Dbl.ninf
  else Dbl.nan

/-- The values glibc's `exp` returns in binary64 at the two logarithms above:
`0x1.3ffffffffffffp+4` (19.999999999999996) and `0x1.76ffffffffffcp+14` (23999.999999999985);
and at `0.25` (a wheel event with `y = -2`): `0x1.48b5e3c3e8186p+0`. Other arguments are
outside the table (NaN). -/
def libm_exp (x : Dbl) : Dbl :=
  if x = Dbl.fin (0x17f7427b73e391 / 2 ^ 51) then Dbl.fin (0x13ffffffffffff / 2 ^ 48)
  else if x = Dbl.fin (0x142bef2bec8b0e / 2 ^ 49) then Dbl.fin (0x176ffffffffffc / 2 ^ 38)
  else if x = Dbl.fin (1 / 4) then Dbl.fin (0x148b5e3c3e8186 / 2 ^ 52)
  else Dbl.nan

/-- The state of the loop right after the lazy reset at 48 kHz, in a window of 640 x 480. -/
def reset_48k : loop_state Dbl :=
  { statics := lazy_reset libm_log (Dbl.fin 48000) statics_init, sdl := { w := 640, h := 480 } }

/-! ### Quantities used in the statements -/

/-- Bound on the error of one rounding of a value of magnitude at most `256`. -/
def eps : ℚ := 1 / 2 ^ 45

/-- The values a width can take before it is clamped: a finite value that is not negative,
`+inf` (overflow), or NaN (`0 * inf`). -/
def nonneg_like : Dbl → Prop
  | .fin q => 0 ≤ q
  | .pinf => True
  | .ninf => False
  | .nan => True

/-- The statics hold finite values: viewport `(a, b)` and limits `(lo, hi)`. -/
def holds (st : statics_t Dbl) (a b lo hi : ℚ) : Prop :=
  st.viewport = { A := Dbl.fin a, B := Dbl.fin b } ∧
    st.limits = { A := Dbl.fin lo, B := Dbl.fin hi }

/-- The limits are ordered and of the magnitude of logarithms of audio frequencies. -/
def limits_range (lo hi : ℚ) : Prop := -32 ≤ lo ∧ lo ≤ hi ∧ hi ≤ 32

/-- Tolerance for one iteration of the event loop: `16 * eps`. -/
def tol : ℚ := 1 / 2 ^ 41

/-- Tolerance for two iterations of the event loop: `128 * eps`. -/
def tol2 : ℚ := 1 / 2 ^ 38

/-- The exact viewport `(a, b)` with the exact limits `(lo, hi)`, as a state of the loop. -/
def exact_state (a b lo hi : ℚ) (sdl : sdl_state_t) : loop_state ℚ :=
  { statics := { viewport := { A := a, B := b }, limits := { A := lo, B := hi } }, sdl := sdl }

/-- The value of `libm_log` at 20, as a rational: the lower limit at 48 kHz. -/
def lo48 : ℚ := 0x17f7427b73e391 / 2 ^ 51

/-- The value of `libm_log` at 24000, as a rational: the upper limit at 48 kHz. -/
def hi48 : ℚ := 0x142bef2bec8b0e / 2 ^ 49

/-- The viewport `st.viewport` is finite, ordered, and inside the finite limits `(lo, hi)` up
to a few roundings: `lo - 2 * eps ≤ A ≤ B ≤ hi + 5 * eps`. -/
def near_inside (st : statics_t Dbl) (lo hi : ℚ) : Prop :=
  ∃ a b, holds st a b lo hi ∧ lo - 2 * eps ≤ a ∧ a ≤ b ∧ b ≤ hi + 5 * eps

/-- The range `p` is what `process` hands to `analyse` for some viewport that is
`near_inside`: `(expf A, expf B)`. -/
def ranged (expf : Dbl → Dbl) (lo hi : ℚ) (p : analysis_params Dbl) : Prop :=
  ∃ a b, lo - 2 * eps ≤ a ∧ a ≤ b ∧ b ≤ hi + 5 * eps ∧
    p = { min_freq := expf (Dbl.fin a), max_freq := expf (Dbl.fin b) }

/-- Invariant of the loop of `main`: the statics are still uninitialised or `near_inside`,
and every range handed to `analyse` is `ranged`. -/
def main_inv (expf : Dbl → Dbl) (lo hi : ℚ) (m : main_state) : Prop :=
  (m.statics = statics_init ∨ near_inside m.statics lo hi) ∧
    ∀ p ∈ m.analysed, ranged expf lo hi p

end B64

/-! ## Exact arithmetic: auxiliary facts

The facts of this section are about the definitions over an ordered field, where no operation
rounds. They are used below through error bounds that relate the binary64 definitions to
them. -/

section Exact

variable {α : Type} [LinearOrderedField α]

theorem land_mask_zero (m b c : Nat) (hb : m &&& b = 0) (hc : b &&& c = c) : m &&& c = 0 := by
  rw [← hc, ← Nat.and_assoc, hb, Nat.zero_and]

theorem blacklist_zero_iff (m : Nat) : m &&& blacklist = 0 ↔ no_modifier m := by
  constructor
  · intro h
    exact ⟨land_mask_zero m blacklist _ h (by decide), land_mask_zero m blacklist _ h (by decide),
      land_mask_zero m blacklist _ h (by decide), land_mask_zero m blacklist _ h (by decide),
      land_mask_zero m blacklist _ h (by decide)⟩
  · rintro ⟨h1, h2, h3, h4, h5⟩
    unfold blacklist
    simp only [Nat.and_or_distrib_left, h1, h2, h3, h4, h5]
    decide

theorem width_of_recentre (lim : viewport_t α) (c w : α) :
    width_of (recentre lim c w) = min w (lim.B - lim.A) := by
  simp only [width_of, recentre]
  ring

theorem centre_of_recentre (lim : viewport_t α) (c w : α) :
    centre_of (recentre lim c w) =
      max (min c (lim.B - min w (lim.B - lim.A) / 2)) (lim.A + min w (lim.B - lim.A) / 2) := by
  simp only [centre_of, recentre]
  ring

theorem viewport_ext (u v : viewport_t α) (hc : centre_of u = centre_of v)
    (hw : width_of u = width_of v) : u = v := by
  cases u with
  | mk a b =>
    cases v with
    | mk a' b' =>
      simp only [centre_of, width_of] at hc hw
      have h1 : a = a' := by linarith
      have h2 : b = b' := by linarith
      rw [h1, h2]

/-- The body on a key press handled with no modifier active. -/
theorem loop_body_key (expf : α → α) (s : loop_state α) (p : polled) (key : Nat)
    (h : unmodified_key p key) :
    loop_body expf s p =
      (true, { statics :=
                { viewport := recentre s.statics.limits
                    (key_switch key (centre_of s.statics.viewport) (width_of s.statics.viewport)).1
                    (key_switch key (centre_of s.statics.viewport) (width_of s.statics.viewport)).2,
                  limits := s.statics.limits },
               sdl := s.sdl }) := by
  obtain ⟨ht, hm, hk⟩ := h
  have hb : p.modstate &&& blacklist = 0 := (blacklist_zero_iff _).2 hm
  simp [loop_body, ht, hb, hk, centre_of, width_of]

/-- The clamp of lines 95-98 is the identity on a viewport that lies inside the limits. -/
theorem recentre_contained (st : statics_t α) (h : contained st) :
    recentre st.limits (centre_of st.viewport) (width_of st.viewport) = st.viewport := by
  obtain ⟨h1, h2, h3⟩ := h
  apply viewport_ext
  · rw [centre_of_recentre]
    have hw : min (width_of st.viewport) (st.limits.B - st.limits.A) = width_of st.viewport := by
      apply min_eq_left
      simp only [width_of]
      linarith
    rw [hw]
    simp only [width_of, centre_of]
    rw [min_eq_left (by linarith), max_eq_left (by linarith)]
  · rw [width_of_recentre]
    apply min_eq_left
    simp only [width_of]
    linarith

/-- In exact arithmetic, on a viewport inside the limits, every event other than a mouse-wheel
event or an H/J/K/L key press handled with no ctrl/shift/alt/gui/mode modifier active leaves
both statics (viewport and limits) as they were, although the recentre-and-clamp of lines
95-98 runs. -/
theorem frame_exact (expf : α → α) (s : loop_state α) (p : polled)
    (hc : contained s.statics)
    (hw : p.ev.type ≠ SDL_MOUSEWHEEL)
    (hk : ¬ (p.ev.type = SDL_KEYDOWN ∧ no_modifier p.modstate ∧
      (p.ev.scancode = SDL_SCANCODE_H ∨ p.ev.scancode = SDL_SCANCODE_J ∨
       p.ev.scancode = SDL_SCANCODE_K ∨ p.ev.scancode = SDL_SCANCODE_L))) :
    (loop_body expf s p).2.statics = s.statics := by
  have hr := recentre_contained s.statics hc
  simp only [centre_of, width_of] at hr
  by_cases hq : p.ev.type = SDL_QUIT
  · simp [loop_body, hq]
  · by_cases hkey : p.ev.type = SDL_KEYDOWN ∧ (p.modstate &&& blacklist) = 0
    · have hm : no_modifier p.modstate := (blacklist_zero_iff _).1 hkey.2
      have hH : p.ev.scancode ≠ SDL_SCANCODE_H := fun e => hk ⟨hkey.1, hm, Or.inl e⟩
      have hJ : p.ev.scancode ≠ SDL_SCANCODE_J := fun e => hk ⟨hkey.1, hm, Or.inr (Or.inl e)⟩
      have hK : p.ev.scancode ≠ SDL_SCANCODE_K :=
        fun e => hk ⟨hkey.1, hm, Or.inr (Or.inr (Or.inl e))⟩
      have hL : p.ev.scancode ≠ SDL_SCANCODE_L :=
        fun e => hk ⟨hkey.1, hm, Or.inr (Or.inr (Or.inr e))⟩
      simp [loop_body, hkey, key_switch, hH, hJ, hK, hL, hr]
    · simp only [loop_body, hq, hw, hkey, if_false, hr]

/-- In exact arithmetic: zoom with factor 2 on a viewport of centre `c` and width `w` inside
limits of width `L`: an unmodified J press gives width `w / 2` and centre `c`; an unmodified K
press gives width `w' = min (2 * w) L` and centre `c` clamped into
`[limits.A + w' / 2, limits.B - w' / 2]`, which is `c` itself when the doubled band
`[c - w, c + w]` fits inside the limits. -/
theorem zoom_exact (expf : α → α) (s : loop_state α) (p : polled)
    (hc : contained s.statics) :
    (unmodified_key p SDL_SCANCODE_J →
      width_of (loop_body expf s p).2.statics.viewport = width_of s.statics.viewport / 2 ∧
      centre_of (loop_body expf s p).2.statics.viewport = centre_of s.statics.viewport) ∧
    (unmodified_key p SDL_SCANCODE_K →
      width_of (loop_body expf s p).2.statics.viewport
        = min (2 * width_of s.statics.viewport) (width_of s.statics.limits) ∧
      centre_of (loop_body expf s p).2.statics.viewport
        = max (s.statics.limits.A + width_of (loop_body expf s p).2.statics.viewport / 2)
            (min (centre_of s.statics.viewport)
              (s.statics.limits.B - width_of (loop_body expf s p).2.statics.viewport / 2)) ∧
      s.statics.limits.A + width_of (loop_body expf s p).2.statics.viewport / 2
        ≤ centre_of (loop_body expf s p).2.statics.viewport ∧
      centre_of (loop_body expf s p).2.statics.viewport
        ≤ s.statics.limits.B - width_of (loop_body expf s p).2.statics.viewport / 2 ∧
      (s.statics.limits.A ≤ centre_of s.statics.viewport - width_of s.statics.viewport ∧
        centre_of s.statics.viewport + width_of s.statics.viewport ≤ s.statics.limits.B →
        width_of (loop_body expf s p).2.statics.viewport = 2 * width_of s.statics.viewport ∧
        centre_of (loop_body expf s p).2.statics.viewport = centre_of s.statics.viewport)) := by
  obtain ⟨h1, h2, h3⟩ := hc
  constructor
  · intro hj
    rw [loop_body_key expf s p _ hj]
    simp only [key_switch, if_true, zoom, width_of_recentre, centre_of_recentre]
    have hw : min (width_of s.statics.viewport / 2) (s.statics.limits.B - s.statics.limits.A)
        = width_of s.statics.viewport / 2 := by
      apply min_eq_left
      simp only [width_of]
      linarith
    rw [hw]
    refine ⟨rfl, ?_⟩
    simp only [width_of, centre_of]
    rw [min_eq_left (by linarith), max_eq_left (by linarith)]
  · intro hk
    rw [loop_body_key expf s p _ hk]
    have hks : key_switch SDL_SCANCODE_K (centre_of s.statics.viewport)
        (width_of s.statics.viewport)
        = (centre_of s.statics.viewport, width_of s.statics.viewport * 2) := by
      simp [key_switch, zoom]
    simp only [hks, width_of_recentre, centre_of_recentre]
    have hcomm : width_of s.statics.viewport * 2 = 2 * width_of s.statics.viewport := by ring
    rw [hcomm]
    have hL : s.statics.limits.B - s.statics.limits.A = width_of s.statics.limits := rfl
    rw [hL]
    set w' := min (2 * width_of s.statics.viewport) (width_of s.statics.limits) with hw'
    have hwL : w' ≤ width_of s.statics.limits := min_le_right _ _
    have hord : s.statics.limits.A + w' / 2 ≤ s.statics.limits.B - w' / 2 := by
      simp only [width_of] at hwL
      linarith
    refine ⟨rfl, ?_, le_max_right _ _, max_le (min_le_right _ _) hord, ?_⟩
    · exact max_comm _ _
    · rintro ⟨ha, hb⟩
      have hfit : 2 * width_of s.statics.viewport ≤ width_of s.statics.limits := by
        simp only [width_of, centre_of] at ha hb ⊢
        linarith
      have hweq : w' = 2 * width_of s.statics.viewport := min_eq_left hfit
      refine ⟨hweq, ?_⟩
      rw [hweq, min_eq_left (by linarith), max_eq_left (by linarith)]

/-- In exact arithmetic: pan by a quarter of the width on a viewport of centre `c` and width
`w` inside the limits: an unmodified H press gives centre `c - w / 4` clamped into
`[limits.A + w / 2, limits.B - w / 2]`, an unmodified L press gives `c + w / 4` clamped into
the same interval; the width stays `w`; and when the shifted band would pass the lower
(upper) limit the new band starts (ends) on that limit. -/
theorem pan_exact (expf : α → α) (s : loop_state α) (p : polled)
    (hc : contained s.statics) :
    (unmodified_key p SDL_SCANCODE_H →
      width_of (loop_body expf s p).2.statics.viewport = width_of s.statics.viewport ∧
      centre_of (loop_body expf s p).2.statics.viewport
        = max (s.statics.limits.A + width_of s.statics.viewport / 2)
            (min (centre_of s.statics.viewport - width_of s.statics.viewport / 4)
              (s.statics.limits.B - width_of s.statics.viewport / 2)) ∧
      (centre_of s.statics.viewport - width_of s.statics.viewport / 4
          - width_of s.statics.viewport / 2 < s.statics.limits.A →
        (loop_body expf s p).2.statics.viewport.A = s.statics.limits.A) ∧
      (s.statics.limits.A ≤ centre_of s.statics.viewport - width_of s.statics.viewport / 4
          - width_of s.statics.viewport / 2 →
        centre_of (loop_body expf s p).2.statics.viewport
          = centre_of s.statics.viewport - width_of s.statics.viewport / 4)) ∧
    (unmodified_key p SDL_SCANCODE_L →
      width_of (loop_body expf s p).2.statics.viewport = width_of s.statics.viewport ∧
      centre_of (loop_body expf s p).2.statics.viewport
        = max (s.statics.limits.A + width_of s.statics.viewport / 2)
            (min (centre_of s.statics.viewport + width_of s.statics.viewport / 4)
              (s.statics.limits.B - width_of s.statics.viewport / 2)) ∧
      (s.statics.limits.B < centre_of s.statics.viewport + width_of s.statics.viewport / 4
          + width_of s.statics.viewport / 2 →
        (loop_body expf s p).2.statics.viewport.B = s.statics.limits.B) ∧
      (centre_of s.statics.viewport + width_of s.statics.viewport / 4
          + width_of s.statics.viewport / 2 ≤ s.statics.limits.B →
        centre_of (loop_body expf s p).2.statics.viewport
          = centre_of s.statics.viewport + width_of s.statics.viewport / 4)) := by
  obtain ⟨h1, h2, h3⟩ := hc
  have hw : min (width_of s.statics.viewport) (s.statics.limits.B - s.statics.limits.A)
      = width_of s.statics.viewport := by
    apply min_eq_left
    simp only [width_of]
    linarith
  constructor
  · intro hh
    rw [loop_body_key expf s p _ hh]
    have hks : key_switch SDL_SCANCODE_H (centre_of s.statics.viewport)
        (width_of s.statics.viewport)
        = (centre_of s.statics.viewport - width_of s.statics.viewport * shift,
            width_of s.statics.viewport) := by
      simp [key_switch]
    have hsh : width_of s.statics.viewport * shift = width_of s.statics.viewport / 4 := by
      simp only [shift]
      ring
    simp only [hks, hsh, width_of_recentre, centre_of_recentre, hw]
    refine ⟨trivial, max_comm _ _, ?_, ?_⟩
    · intro hsp
      simp only [recentre, hw]
      rw [min_eq_left (by simp only [width_of, centre_of] at hsp ⊢; linarith),
        max_eq_right (by linarith)]
      ring
    · intro hfit
      rw [min_eq_left (by simp only [width_of, centre_of] at hfit ⊢; linarith),
        max_eq_left (by linarith)]
  · intro hl
    rw [loop_body_key expf s p _ hl]
    have hks : key_switch SDL_SCANCODE_L (centre_of s.statics.viewport)
        (width_of s.statics.viewport)
        = (centre_of s.statics.viewport + width_of s.statics.viewport * shift,
            width_of s.statics.viewport) := by
      simp [key_switch]
    have hsh : width_of s.statics.viewport * shift = width_of s.statics.viewport / 4 := by
      simp only [shift]
      ring
    simp only [hks, hsh, width_of_recentre, centre_of_recentre, hw]
    refine ⟨trivial, max_comm _ _, ?_, ?_⟩
    · intro hsp
      simp only [recentre, hw]
      rw [min_eq_right (by linarith),
        max_eq_left (by simp only [width_of] at hw ⊢; linarith)]
      ring
    · intro hfit
      rw [min_eq_left (by linarith),
        max_eq_left (by simp only [width_of, centre_of] at hfit ⊢; linarith)]

/-- In exact arithmetic, on a viewport inside the limits, an unmodified J press followed by an
unmodified K press restores the statics; the reverse order is not an identity in
general: whenever the zoom-out is clamped by the limits (the doubled width exceeds the width
of the limits), K followed by J ends on a different viewport. -/
theorem round_trip_exact (expf : α → α) (s : loop_state α) (pj pk : polled)
    (hc : contained s.statics)
    (hj : unmodified_key pj SDL_SCANCODE_J) (hk : unmodified_key pk SDL_SCANCODE_K) :
    (poll_loop expf s [pj, pk]).1 = true ∧
    (poll_loop expf s [pj, pk]).2.statics = s.statics ∧
    (width_of s.statics.limits < 2 * width_of s.statics.viewport →
      (poll_loop expf s [pk, pj]).2.statics ≠ s.statics) := by
  obtain ⟨h1, h2, h3⟩ := hc
  have hkj : ∀ c w : α, key_switch SDL_SCANCODE_J c w = (c, w / 2) := by
    intro c w
    simp [key_switch, zoom]
  have hkk : ∀ c w : α, key_switch SDL_SCANCODE_K c w = (c, w * 2) := by
    intro c w
    simp [key_switch, zoom]
  refine ⟨?_, ?_, ?_⟩
  · simp only [poll_loop, loop_body_key expf _ pj _ hj, loop_body_key expf _ pk _ hk]
  · simp only [poll_loop, loop_body_key expf _ pj _ hj, loop_body_key expf _ pk _ hk, hkj, hkk]
    have hv : recentre s.statics.limits
        (centre_of (recentre s.statics.limits (centre_of s.statics.viewport)
          (width_of s.statics.viewport / 2)))
        (width_of (recentre s.statics.limits (centre_of s.statics.viewport)
          (width_of s.statics.viewport / 2)) * 2) = s.statics.viewport := by
      have hw1 : min (width_of s.statics.viewport / 2) (s.statics.limits.B - s.statics.limits.A)
          = width_of s.statics.viewport / 2 := by
        apply min_eq_left
        simp only [width_of]
        linarith
      have hc1 : centre_of (recentre s.statics.limits (centre_of s.statics.viewport)
          (width_of s.statics.viewport / 2)) = centre_of s.statics.viewport := by
        rw [centre_of_recentre, hw1]
        simp only [width_of, centre_of]
        rw [min_eq_left (by linarith), max_eq_left (by linarith)]
      rw [hc1, width_of_recentre, hw1]
      have hw2 : width_of s.statics.viewport / 2 * 2 = width_of s.statics.viewport := by ring
      rw [hw2]
      exact recentre_contained s.statics ⟨h1, h2, h3⟩
    rw [hv]
  · intro hcl h
    simp only [poll_loop, loop_body_key expf _ pj _ hj, loop_body_key expf _ pk _ hk, hkj, hkk]
      at h
    have hW := congrArg (fun st : statics_t α => width_of st.viewport) h
    simp only [width_of_recentre] at hW
    have hL : s.statics.limits.B - s.statics.limits.A = width_of s.statics.limits := rfl
    rw [hL] at hW
    have hL0 : 0 ≤ width_of s.statics.limits := by
      simp only [width_of]
      linarith
    have e1 : min (width_of s.statics.viewport * 2) (width_of s.statics.limits)
        = width_of s.statics.limits := min_eq_right (by linarith)
    have e2 : min (width_of s.statics.limits / 2) (width_of s.statics.limits)
        = width_of s.statics.limits / 2 := min_eq_left (by linarith)
    rw [e1, e2] at hW
    simp only [width_of] at hW hcl
    linarith

end Exact

/-! ## The startup -/

section Startup

end Startup

/-! ## The wheel -/

section Wheel

variable {α : Type} [LinearOrderedField α]

/-- C2, counterexample. Right after the reset at 48 kHz the wheel event `(dx, dy) = (1, 1)`
makes the code narrow the viewport and move its centre down, whereas the formula of the claim
(width times `exp (dy / 8)`, then clamp) leaves width and centre as they were. -/
theorem apply_wheel_counterexample :
    width_of (loop_body Real.exp (reset_state Real.log (48000 : ℝ)) (wheel 1 1)).2.statics.viewport
        < width_of (apply_wheel_spec Real.exp (reset_state Real.log (48000 : ℝ)).statics 1 1) ∧
      centre_of (loop_body Real.exp (reset_state Real.log (48000 : ℝ))
          (wheel 1 1)).2.statics.viewport
        < centre_of (apply_wheel_spec Real.exp (reset_state Real.log (48000 : ℝ)).statics 1 1) ∧
      (loop_body Real.exp (reset_state Real.log (48000 : ℝ)) (wheel 1 1)).2.statics.viewport
        ≠ apply_wheel_spec Real.exp (reset_state Real.log (48000 : ℝ)).statics 1 1 := by
  have hlog : Real.log 20 < Real.log ((48000 : ℝ) / 2) :=
    Real.log_lt_log (by norm_num) (by norm_num)
  have hdn : Real.exp (-(1 / 8 : ℝ)) < 1 := Real.exp_lt_one_iff.2 (by norm_num)
  have hup : 1 < Real.exp (1 / 8 : ℝ) := Real.one_lt_exp_iff.2 (by norm_num)
  have hbody : (loop_body Real.exp (reset_state Real.log (48000 : ℝ)) (wheel 1 1)).2.statics.viewport
      = recentre { A := Real.log 20, B := Real.log ((48000 : ℝ) / 2) }
          ((Real.log 20 + Real.log ((48000 : ℝ) / 2)) / 2
            + (Real.log ((48000 : ℝ) / 2) - Real.log 20) * (-(1 / 32)))
          ((Real.log ((48000 : ℝ) / 2) - Real.log 20) * Real.exp (-(1 / 8))) := by
    simp [loop_body, wheel, reset_state, lazy_reset, max_freq_of, wheel_update, xf, yf]
  have hspec : apply_wheel_spec Real.exp (reset_state Real.log (48000 : ℝ)).statics 1 1
      = recentre { A := Real.log 20, B := Real.log ((48000 : ℝ) / 2) }
          ((Real.log 20 + Real.log ((48000 : ℝ) / 2)) / 2
            + (Real.log ((48000 : ℝ) / 2) - Real.log 20) * Real.exp (1 / 8) * (-(1 / 32)))
          ((Real.log ((48000 : ℝ) / 2) - Real.log 20) * Real.exp (1 / 8)) := by
    simp [apply_wheel_spec, reset_state, lazy_reset, max_freq_of, centre_of, width_of]
  set L := Real.log ((48000 : ℝ) / 2) - Real.log 20 with hL
  have hLpos : 0 < L := by
    rw [hL]
    linarith
  have hw1 : width_of (loop_body Real.exp (reset_state Real.log (48000 : ℝ))
      (wheel 1 1)).2.statics.viewport = L * Real.exp (-(1 / 8)) := by
    rw [hbody, width_of_recentre]
    exact min_eq_left (by nlinarith)
  have hw2 : width_of (apply_wheel_spec Real.exp (reset_state Real.log (48000 : ℝ)).statics 1 1)
      = L := by
    rw [hspec, width_of_recentre]
    exact min_eq_right (by nlinarith)
  have hwlt : L * Real.exp (-(1 / 8)) < L := by nlinarith
  have hc1 : centre_of (loop_body Real.exp (reset_state Real.log (48000 : ℝ))
      (wheel 1 1)).2.statics.viewport < (Real.log 20 + Real.log ((48000 : ℝ) / 2)) / 2 := by
    rw [hbody, centre_of_recentre]
    have hm : min (L * Real.exp (-(1 / 8))) L = L * Real.exp (-(1 / 8)) :=
      min_eq_left (le_of_lt hwlt)
    simp only [← hL, hm]
    apply max_lt
    · apply lt_of_le_of_lt (min_le_left _ _)
      nlinarith
    · linarith
  have hc2 : centre_of (apply_wheel_spec Real.exp (reset_state Real.log (48000 : ℝ)).statics 1 1)
      = (Real.log 20 + Real.log ((48000 : ℝ) / 2)) / 2 := by
    rw [hspec, centre_of_recentre]
    have hm : min (L * Real.exp (1 / 8)) L = L := min_eq_right (by nlinarith)
    simp only [← hL, hm]
    apply le_antisymm
    · apply max_le
      · apply le_trans (min_le_right _ _)
        linarith
      · linarith
    · apply le_trans _ (le_max_right _ _)
      linarith
  refine ⟨by rw [hw1, hw2]; exact hwlt, by rw [hc2]; exact hc1, ?_⟩
  intro h
  rw [h, hw2] at hw1
  linarith

/-- C2, amended. On a wheel event `(dx, dy)` the code first moves the centre by the width it
had before the event, `c1 = c + w * (-dx * (1/32))`, then scales the width by the exponential of
minus `dy / 8`, `w1 = w * exp (-dy * (1/8))`, and only then clamps: the width to that of the
limits, the centre to `[limits.A + w2 / 2, limits.B - w2 / 2]`. -/
theorem apply_wheel_formula (expf : α → α) (s : loop_state α) (p : polled)
    (hw : p.ev.type = SDL_MOUSEWHEEL) :
    let c := centre_of s.statics.viewport
    let w := width_of s.statics.viewport
    let c1 := c + w * (-(p.ev.wheel_x : α) * (1 / 32))
    let w1 := w * expf (-(p.ev.wheel_y : α) * (1 / 8))
    let w2 := min w1 (width_of s.statics.limits)
    let c2 := max (min c1 (s.statics.limits.B - w2 / 2)) (s.statics.limits.A + w2 / 2)
    loop_body expf s p =
      (true, { statics := { viewport := { A := c2 - w2 / 2, B := c2 + w2 / 2 },
                            limits := s.statics.limits },
               sdl := s.sdl }) := by
  simp [loop_body, hw, wheel_update, recentre, centre_of, width_of, xf, yf]

/-- Witness for C2 (amended): the wheel event `(1, 1)` right after the reset at 48 kHz. -/
theorem apply_wheel_formula_witness :
    (wheel 1 1).ev.type = SDL_MOUSEWHEEL ∧
      (loop_body Real.exp (reset_state Real.log (48000 : ℝ)) (wheel 1 1)).1 = true :=
  ⟨rfl, congrArg Prod.fst (apply_wheel_formula Real.exp _ (wheel 1 1) rfl)⟩

end Wheel

/-! ## `record` -/

section RecordProofs

/-- A loop that stores `f i` at every index `i < k` of a list. -/
theorem foldl_set_range {α : Type} (f : Nat → α) (a : List α) (k : Nat) :
    ((List.range k).foldl (fun acc i => acc.set i (f i)) a).length = a.length ∧
      ∀ j, ((List.range k).foldl (fun acc i => acc.set i (f i)) a)[j]?
        = if j < k ∧ j < a.length then some (f j) else a[j]? := by
  induction k with
  | zero => simp
  | succ k ih =>
    rw [List.range_succ, List.foldl_append]
    simp only [List.foldl_cons, List.foldl_nil, List.length_set]
    refine ⟨ih.1, ?_⟩
    intro j
    rw [List.getElem?_set, ih.1, ih.2 j]
    by_cases hkj : k = j
    · subst hkj
      by_cases hk : k < a.length
      · simp [hk]
      · simp [hk]
        omega
    · by_cases hj : j < k
      · have : j < k + 1 := by omega
        simp [hkj, hj, this]
      · have : ¬ j < k + 1 := by omega
        simp [hkj, hj, this]

variable {α β : Type} [Zero α]

/-- C8. The block entry point: for every block length `n`, input block `inp` of `n` samples,
output block of `n` samples and local array of `n` elements, `record` applies `buffer_push`
once, to the buffer it was given, the `n` input samples in their order with their values, and
the count `n`; it leaves `n` zeros in the output block; and it returns 0. -/
theorem record_block (buffer_push : β → List α → Nat → β) (n : Nat) (buf : β)
    (inp out in_double : List α)
    (hin : inp.length = n) (hout : out.length = n) (hloc : in_double.length = n) :
    record buffer_push n buf inp out in_double =
      { buf := buffer_push buf inp n, out := List.replicate n 0, ret := 0 } := by
  have h1 : copy_loop n inp in_double = inp := by
    have h := foldl_set_range (fun i => inp.getD i 0) in_double n
    apply List.ext_getElem?
    intro j
    unfold copy_loop
    rw [h.2 j]
    by_cases hj : j < n
    · have hj' : j < inp.length := by omega
      simp [hj, hloc, List.getD, List.getElem?_eq_getElem hj']
    · have e1 : inp[j]? = none := List.getElem?_eq_none (by omega)
      have e2 : in_double[j]? = none := List.getElem?_eq_none (by omega)
      simp [hj, e1, e2]
  have h2 : silence_loop n out = List.replicate n 0 := by
    have h := foldl_set_range (fun _ => (0 : α)) out n
    apply List.ext_getElem?
    intro j
    unfold silence_loop
    rw [h.2 j, List.getElem?_replicate]
    by_cases hj : j < n
    · simp [hj, hout]
    · have e2 : out[j]? = none := List.getElem?_eq_none (by omega)
      simp [hj, e2]
  simp only [record, h1, h2]

/-- Witness for C8: a block of three samples pushed onto a buffer that logs its pushes. -/
theorem record_block_witness :
    ([1, -2, 3] : List Int).length = 3 ∧ ([7, 7, 7] : List Int).length = 3 ∧
    ([9, 9, 9] : List Int).length = 3 ∧
    record (log_push : List (List Int × Nat) → List Int → Nat → List (List Int × Nat)) 3 []
        [1, -2, 3] [7, 7, 7] [9, 9, 9]
      = { buf := [([1, -2, 3], 3)], out := [0, 0, 0], ret := 0 } :=
  ⟨rfl, rfl, rfl,
   record_block (log_push : List (List Int × Nat) → List Int → Nat → List (List Int × Nat)) 3 []
     [1, -2, 3] [7, 7, 7] [9, 9, 9] rfl rfl rfl⟩

end RecordProofs

/-! ## Binary64: properties of the rounding -/

namespace B64

theorem log2_steps_spec : ∀ fuel n : Nat, n ≤ fuel → n ≠ 0 →
    2 ^ log2_steps fuel n ≤ n ∧ n < 2 ^ (log2_steps fuel n + 1) := by
  intro fuel
  induction fuel with
  | zero =>
    intro n h h0
    omega
  | succ f ih =>
    intro n h h0
    unfold log2_steps
    by_cases h2 : n < 2
    · rw [if_pos h2]
      have : n = 1 := by omega
      subst this
      simp
    · rw [if_neg h2]
      have hle : n / 2 ≤ f := by omega
      have hne : n / 2 ≠ 0 := by omega
      obtain ⟨h1, h3⟩ := ih (n / 2) hle hne
      constructor
      · rw [pow_succ]
        omega
      · rw [pow_succ]
        omega

theorem nlog2_spec (n : Nat) (h0 : n ≠ 0) : 2 ^ nlog2 n ≤ n ∧ n < 2 ^ (nlog2 n + 1) :=
  log2_steps_spec n n (le_refl n) h0

theorem pow2_eq (e : Int) : pow2 e = (2 : ℚ) ^ e := by
  unfold pow2
  by_cases h : 0 ≤ e
  · rw [if_pos h]
    obtain ⟨n, rfl⟩ := Int.eq_ofNat_of_zero_le h
    simp
  · rw [if_neg h]
    have hn : 0 ≤ -e := by omega
    obtain ⟨n, hn'⟩ := Int.eq_ofNat_of_zero_le hn
    have he : e = -(n : Int) := by omega
    subst he
    simp

theorem pow2_pos (e : Int) : 0 < pow2 e := by
  rw [pow2_eq]
  positivity

theorem pow2_add (a b : Int) : pow2 (a + b) = pow2 a * pow2 b := by
  simp only [pow2_eq]
  exact zpow_add₀ (by norm_num) a b

theorem pow2_le_pow2 {a b : Int} (h : a ≤ b) : pow2 a ≤ pow2 b := by
  simp only [pow2_eq]
  exact zpow_le_zpow_right₀ (by norm_num) h

theorem pow2_lt_pow2 {a b : Int} (h : a < b) : pow2 a < pow2 b := by
  simp only [pow2_eq]
  exact zpow_lt_zpow_right₀ (by norm_num) h

/-- The defining property of `ilog2`. -/
theorem ilog2_spec (q : ℚ) (hq : q ≠ 0) : pow2 (ilog2 q) ≤ |q| ∧ |q| < pow2 (ilog2 q + 1) := by
  have hn0 : q.num.natAbs ≠ 0 := by
    simpa using (Rat.num_ne_zero.2 hq)
  have hd0 : q.den ≠ 0 := q.den_nz
  obtain ⟨hn1, hn2⟩ := nlog2_spec _ hn0
  obtain ⟨hd1, hd2⟩ := nlog2_spec _ hd0
  have habs : |q| = (q.num.natAbs : ℚ) / (q.den : ℚ) := by
    have h1 : q = (q.num : ℚ) / (q.den : ℚ) := (Rat.num_div_den q).symm
    have h2 : |(q.num : ℚ)| = (q.num.natAbs : ℚ) := by
      rw [Nat.cast_natAbs, Int.cast_abs]
    conv_lhs => rw [h1]
    rw [abs_div, h2, Nat.abs_cast]
  have hdpos : (0 : ℚ) < q.den := by exact_mod_cast Nat.pos_of_ne_zero hd0
  set a := nlog2 q.num.natAbs with ha
  set b := nlog2 q.den with hb
  have hn1q : (2 : ℚ) ^ a ≤ (q.num.natAbs : ℚ) := by exact_mod_cast hn1
  have hn2q : (q.num.natAbs : ℚ) < (2 : ℚ) ^ (a + 1) := by exact_mod_cast hn2
  have hd1q : (2 : ℚ) ^ b ≤ (q.den : ℚ) := by exact_mod_cast hd1
  have hd2q : (q.den : ℚ) < (2 : ℚ) ^ (b + 1) := by exact_mod_cast hd2
  have hpa : (0 : ℚ) < 2 ^ a := by positivity
  have hpb : (0 : ℚ) < 2 ^ b := by positivity
  have e1 : pow2 ((a : Int) - b) = (2 : ℚ) ^ a / 2 ^ b := by
    rw [pow2_eq, zpow_sub₀ (by norm_num), zpow_natCast, zpow_natCast]
  have e2 : pow2 ((a : Int) - b + 1) = (2 : ℚ) ^ (a + 1) / 2 ^ b := by
    rw [pow2_eq, show (a : Int) - b + 1 = ((a + 1 : Nat) : Int) - b by push_cast; ring,
      zpow_sub₀ (by norm_num), zpow_natCast, zpow_natCast]
  have e3 : pow2 ((a : Int) - b - 1) = (2 : ℚ) ^ a / 2 ^ (b + 1) := by
    rw [pow2_eq, show (a : Int) - b - 1 = (a : Int) - ((b + 1 : Nat) : Int) by push_cast; ring,
      zpow_sub₀ (by norm_num), zpow_natCast, zpow_natCast]
  unfold ilog2
  rw [habs]
  by_cases hc : q.den * 2 ^ a ≤ q.num.natAbs * 2 ^ b
  · rw [if_pos hc, e1, e2]
    have hcq : (q.den : ℚ) * 2 ^ a ≤ (q.num.natAbs : ℚ) * 2 ^ b := by exact_mod_cast hc
    constructor
    · rw [div_le_div_iff₀ hpb hdpos]
      linarith
    · rw [div_lt_div_iff₀ hdpos hpb]
      calc (q.num.natAbs : ℚ) * 2 ^ b < 2 ^ (a + 1) * 2 ^ b := by
            exact mul_lt_mul_of_pos_right hn2q hpb
        _ ≤ 2 ^ (a + 1) * (q.den : ℚ) := by
            exact mul_le_mul_of_nonneg_left hd1q (by positivity)
  · rw [if_neg hc]
    have hcq : (q.num.natAbs : ℚ) * 2 ^ b < (q.den : ℚ) * 2 ^ a := by
      exact_mod_cast (not_le.1 hc)
    rw [e3, show (a : Int) - b - 1 + 1 = (a : Int) - b by ring, e1]
    constructor
    · rw [div_le_div_iff₀ (by positivity) hdpos]
      calc (2 : ℚ) ^ a * (q.den : ℚ) ≤ 2 ^ a * 2 ^ (b + 1) := by
            exact mul_le_mul_of_nonneg_left hd2q.le (by positivity)
        _ ≤ (q.num.natAbs : ℚ) * 2 ^ (b + 1) := by
            exact mul_le_mul_of_nonneg_right hn1q (by positivity)
    · rw [div_lt_div_iff₀ hdpos hpb]
      linarith

/-- The exponent `ilog2 q` is the only one whose binade contains `|q|`. -/
theorem ilog2_eq (q : ℚ) (k : Int) (h1 : pow2 k ≤ |q|) (h2 : |q| < pow2 (k + 1)) :
    ilog2 q = k := by
  have hq : q ≠ 0 := by
    intro h
    rw [h, abs_zero] at h1
    exact absurd (pow2_pos k) (not_lt.2 h1)
  obtain ⟨s1, s2⟩ := ilog2_spec q hq
  have a1 : ilog2 q < k + 1 := by
    by_contra hc
    have := pow2_le_pow2 (not_lt.1 hc)
    linarith
  have a2 : k < ilog2 q + 1 := by
    by_contra hc
    have := pow2_le_pow2 (not_lt.1 hc)
    linarith
  omega

theorem ilog2_le_of_abs_le (q : ℚ) (hq : q ≠ 0) (k : Int) (h : |q| ≤ pow2 k) : ilog2 q ≤ k := by
  obtain ⟨s1, _⟩ := ilog2_spec q hq
  by_contra hc
  have := pow2_lt_pow2 (not_le.1 hc)
  linarith

/-- What `round_even` returns: a nearest integer, the even one in a halfway case. -/
theorem round_even_spec (r : ℚ) :
    |(round_even r : ℚ) - r| < 1 / 2 ∨
      (|(round_even r : ℚ) - r| = 1 / 2 ∧ round_even r % 2 = 0) := by
  have h1 : (⌊r⌋ : ℚ) ≤ r := Int.floor_le r
  have h2 : r < (⌊r⌋ : ℚ) + 1 := Int.lt_floor_add_one r
  unfold round_even
  by_cases c1 : r - ⌊r⌋ < 1 / 2
  · rw [if_pos c1]
    left
    rw [abs_lt]
    constructor <;> linarith
  · rw [if_neg c1]
    by_cases c2 : 1 / 2 < r - ⌊r⌋
    · rw [if_pos c2]
      left
      rw [abs_lt]
      push_cast
      constructor <;> linarith
    · rw [if_neg c2]
      have he : r - ⌊r⌋ = 1 / 2 := le_antisymm (not_lt.1 c2) (not_lt.1 c1)
      right
      by_cases c3 : ⌊r⌋ % 2 = 0
      · rw [if_pos c3]
        refine ⟨?_, c3⟩
        rw [abs_sub_comm, he]
        norm_num
      · rw [if_neg c3]
        refine ⟨?_, by omega⟩
        push_cast
        have : (⌊r⌋ : ℚ) + 1 - r = 1 / 2 := by linarith
        rw [this]
        norm_num

/-- The property of `round_even_spec` determines the integer. -/
theorem round_even_unique (r : ℚ) (n : Int)
    (h : |(n : ℚ) - r| < 1 / 2 ∨ (|(n : ℚ) - r| = 1 / 2 ∧ n % 2 = 0)) : round_even r = n := by
  have hs := round_even_spec r
  set m := round_even r with hm
  have hn : |(n : ℚ) - r| ≤ 1 / 2 := by
    rcases h with h | h
    · exact h.le
    · exact h.1.le
  have hmle : |(m : ℚ) - r| ≤ 1 / 2 := by
    rcases hs with h | h
    · exact h.le
    · exact h.1.le
  rw [abs_le] at hn hmle
  have hd : |(m : ℚ) - n| ≤ 1 := by
    rw [abs_le]
    constructor <;> linarith
  have hd' : |m - n| ≤ 1 := by exact_mod_cast hd
  rw [abs_le] at hd'
  by_contra hne
  have hcases : m = n + 1 ∨ n = m + 1 := by omega
  rcases hcases with e | e
  · -- m = n + 1: both are at distance exactly 1/2
    have e' : (m : ℚ) = n + 1 := by exact_mod_cast e
    have hr : r = (n : ℚ) + 1 / 2 := by linarith [hn.1, hn.2, hmle.1, hmle.2]
    have hm2 : |(m : ℚ) - r| = 1 / 2 := by
      rw [e', hr]
      norm_num
    have hn2 : |(n : ℚ) - r| = 1 / 2 := by
      rw [hr]
      norm_num
    have pm : m % 2 = 0 := by
      rcases hs with h | h
      · rw [hm2] at h
        exact absurd h (lt_irrefl _)
      · exact h.2
    have pn : n % 2 = 0 := by
      rcases h with h | h
      · rw [hn2] at h
        exact absurd h (lt_irrefl _)
      · exact h.2
    omega
  · have e' : (n : ℚ) = m + 1 := by exact_mod_cast e
    have hr : r = (m : ℚ) + 1 / 2 := by linarith [hn.1, hn.2, hmle.1, hmle.2]
    have hm2 : |(m : ℚ) - r| = 1 / 2 := by
      rw [hr]
      norm_num
    have hn2 : |(n : ℚ) - r| = 1 / 2 := by
      rw [e', hr]
      norm_num
    have pm : m % 2 = 0 := by
      rcases hs with h | h
      · rw [hm2] at h
        exact absurd h (lt_irrefl _)
      · exact h.2
    have pn : n % 2 = 0 := by
      rcases h with h | h
      · rw [hn2] at h
        exact absurd h (lt_irrefl _)
      · exact h.2
    omega

theorem round_even_near (r : ℚ) : |(round_even r : ℚ) - r| ≤ 1 / 2 := by
  rcases round_even_spec r with h | h
  · exact h.le
  · exact h.1.le

theorem round_even_int (n : Int) : round_even (n : ℚ) = n :=
  round_even_unique _ n (Or.inl (by simp))

theorem round_even_neg (r : ℚ) : round_even (-r) = -round_even r := by
  apply round_even_unique
  have e : ((-round_even r : Int) : ℚ) - -r = -((round_even r : ℚ) - r) := by
    push_cast
    ring
  rw [e, abs_neg]
  rcases round_even_spec r with h | h
  · exact Or.inl h
  · exact Or.inr ⟨h.1, by omega⟩

theorem round_even_mono {r s : ℚ} (h : r ≤ s) : round_even r ≤ round_even s := by
  by_contra hc
  have hlt : round_even s + 1 ≤ round_even r := by omega
  have hq : (round_even s : ℚ) + 1 ≤ (round_even r : ℚ) := by exact_mod_cast hlt
  have hr := round_even_near r
  have hs := round_even_near s
  rw [abs_le] at hr hs
  have hrs : r = s := by linarith
  rw [hrs] at hc
  exact hc (le_refl _)

theorem fl_zero : fl 0 = 0 := by
  simp [fl]

theorem fl_eq (q : ℚ) (hq : q ≠ 0) :
    fl q = (round_even (q / pow2 (expo q)) : ℚ) * pow2 (expo q) := by
  simp [fl, hq]

theorem ilog2_neg (q : ℚ) : ilog2 (-q) = ilog2 q := by
  simp [ilog2]

theorem expo_neg (q : ℚ) : expo (-q) = expo q := by
  simp [expo, ilog2_neg]

theorem fl_neg (q : ℚ) : fl (-q) = -fl q := by
  by_cases hq : q = 0
  · simp [hq, fl_zero]
  · have hq' : -q ≠ 0 := neg_ne_zero.2 hq
    rw [fl_eq q hq, fl_eq (-q) hq', expo_neg, neg_div, round_even_neg]
    push_cast
    ring

theorem expo_ge (q : ℚ) : -1074 ≤ expo q := le_max_right _ _

/-- The rounding error is at most half a unit in the last place. -/
theorem fl_err (q : ℚ) (hq : q ≠ 0) : |fl q - q| ≤ pow2 (expo q) / 2 := by
  have hp := pow2_pos (expo q)
  have hn := round_even_near (q / pow2 (expo q))
  rw [fl_eq q hq]
  have e : (round_even (q / pow2 (expo q)) : ℚ) * pow2 (expo q) - q
      = ((round_even (q / pow2 (expo q)) : ℚ) - q / pow2 (expo q)) * pow2 (expo q) := by
    field_simp
  rw [e, abs_mul, abs_of_pos hp]
  calc |(round_even (q / pow2 (expo q)) : ℚ) - q / pow2 (expo q)| * pow2 (expo q)
      ≤ 1 / 2 * pow2 (expo q) := mul_le_mul_of_nonneg_right hn hp.le
    _ = pow2 (expo q) / 2 := by ring

/-- Absolute rounding error on a bounded range: for `|q| ≤ 2 ^ k` it is at most
`2 ^ (k - 53)`. -/
theorem fl_abs_err (q : ℚ) (k : Int) (hk : -1021 ≤ k) (h : |q| ≤ pow2 k) :
    |fl q - q| ≤ pow2 (k - 53) := by
  by_cases hq : q = 0
  · rw [hq, fl_zero]
    simp only [sub_zero, abs_zero]
    exact (pow2_pos _).le
  · have he : expo q ≤ k - 52 := by
      unfold expo
      have := ilog2_le_of_abs_le q hq k h
      exact max_le (by omega) (by omega)
    have h1 := fl_err q hq
    have h2 : pow2 (expo q) ≤ pow2 (k - 52) := pow2_le_pow2 he
    have h3 : pow2 (k - 52) = pow2 (k - 53) * 2 := by
      rw [show k - 52 = (k - 53) + 1 by ring, pow2_add]
      congr 1
    linarith

/-- A power of two above a positive `q`, at or above its last place, is above `fl q`. -/
theorem fl_le_pow2 (q : ℚ) (t : Int) (hq : 0 < q) (h : q ≤ pow2 t) (he : expo q ≤ t) :
    fl q ≤ pow2 t := by
  have hp := pow2_pos (expo q)
  rw [fl_eq q hq.ne']
  obtain ⟨n, hn⟩ := Int.eq_ofNat_of_zero_le (show 0 ≤ t - expo q by omega)
  have ht : pow2 t = ((2 ^ n : Nat) : ℚ) * pow2 (expo q) := by
    have : t = (n : Int) + expo q := by omega
    rw [this, pow2_add, pow2_eq (n : Int)]
    simp
  have hle : q / pow2 (expo q) ≤ (((2 ^ n : Nat) : Int) : ℚ) := by
    rw [div_le_iff₀ hp]
    push_cast
    rw [ht] at h
    push_cast at h
    exact h
  have hr := round_even_mono hle
  rw [round_even_int] at hr
  have hrq : (round_even (q / pow2 (expo q)) : ℚ) ≤ ((2 ^ n : Nat) : ℚ) := by exact_mod_cast hr
  rw [ht]
  exact mul_le_mul_of_nonneg_right hrq hp.le

/-- A power of two below a positive `q`, at or above its last place, is below `fl q`. -/
theorem pow2_le_fl (q : ℚ) (t : Int) (hq : 0 < q) (h : pow2 t ≤ q) (he : expo q ≤ t) :
    pow2 t ≤ fl q := by
  have hp := pow2_pos (expo q)
  rw [fl_eq q hq.ne']
  obtain ⟨n, hn⟩ := Int.eq_ofNat_of_zero_le (show 0 ≤ t - expo q by omega)
  have ht : pow2 t = ((2 ^ n : Nat) : ℚ) * pow2 (expo q) := by
    have : t = (n : Int) + expo q := by omega
    rw [this, pow2_add, pow2_eq (n : Int)]
    simp
  have hle : (((2 ^ n : Nat) : Int) : ℚ) ≤ q / pow2 (expo q) := by
    rw [le_div_iff₀ hp]
    push_cast
    rw [ht] at h
    push_cast at h
    exact h
  have hr := round_even_mono hle
  rw [round_even_int] at hr
  have hrq : ((2 ^ n : Nat) : ℚ) ≤ (round_even (q / pow2 (expo q)) : ℚ) := by exact_mod_cast hr
  rw [ht]
  exact mul_le_mul_of_nonneg_right hrq hp.le

theorem fl_nonneg (q : ℚ) (hq : 0 ≤ q) : 0 ≤ fl q := by
  by_cases h0 : q = 0
  · rw [h0, fl_zero]
  · have hp := pow2_pos (expo q)
    rw [fl_eq q h0]
    have hle : ((0 : Int) : ℚ) ≤ q / pow2 (expo q) := by
      push_cast
      exact div_nonneg hq hp.le
    have hr := round_even_mono hle
    rw [round_even_int] at hr
    have hrq : (0 : ℚ) ≤ (round_even (q / pow2 (expo q)) : ℚ) := by exact_mod_cast hr
    exact mul_nonneg hrq hp.le

theorem fl_mono_pos {x y : ℚ} (hx : 0 < x) (h : x ≤ y) : fl x ≤ fl y := by
  have hy : 0 < y := lt_of_lt_of_le hx h
  obtain ⟨x1, x2⟩ := ilog2_spec x hx.ne'
  obtain ⟨y1, y2⟩ := ilog2_spec y hy.ne'
  rw [abs_of_pos hx] at x1 x2
  rw [abs_of_pos hy] at y1 y2
  have hk : ilog2 x ≤ ilog2 y := by
    by_contra hc
    have := pow2_le_pow2 (show ilog2 y + 1 ≤ ilog2 x by omega)
    linarith
  have hexy : expo x ≤ expo y := by
    unfold expo
    exact max_le_max (by omega) (le_refl _)
  rcases eq_or_lt_of_le hexy with he | he
  · rw [fl_eq x hx.ne', fl_eq y hy.ne', he]
    have hp := pow2_pos (expo y)
    have hle : x / pow2 (expo y) ≤ y / pow2 (expo y) := div_le_div_of_nonneg_right h hp.le
    have hr := round_even_mono hle
    have hrq : (round_even (x / pow2 (expo y)) : ℚ) ≤ (round_even (y / pow2 (expo y)) : ℚ) := by
      exact_mod_cast hr
    exact mul_le_mul_of_nonneg_right hrq hp.le
  · have hey : expo y = ilog2 y - 52 := by
      unfold expo at he ⊢
      have h1 : (-1074 : Int) ≤ max (ilog2 x - 52) (-1074) := le_max_right _ _
      rcases max_choice (ilog2 y - 52) (-1074) with hm | hm
      · exact hm
      · rw [hm] at he
        omega
    have hex : ilog2 x - 52 ≤ expo x := le_max_left _ _
    have hkk : ilog2 x + 1 ≤ ilog2 y := by omega
    have hxle : x ≤ pow2 (ilog2 y) := le_trans x2.le (pow2_le_pow2 hkk)
    have a := fl_le_pow2 x (ilog2 y) hx hxle (by omega)
    have b := pow2_le_fl y (ilog2 y) hy y1 (by omega)
    exact le_trans a b

/-- Rounding to nearest is monotone. -/
theorem fl_mono {x y : ℚ} (h : x ≤ y) : fl x ≤ fl y := by
  rcases lt_trichotomy x 0 with hx | hx | hx
  · rcases lt_or_le y 0 with hy | hy
    · have := fl_mono_pos (show 0 < -y by linarith) (show -y ≤ -x by linarith)
      rw [fl_neg, fl_neg] at this
      linarith
    · have h1 := fl_nonneg (-x) (by linarith)
      rw [fl_neg] at h1
      have h2 := fl_nonneg y hy
      linarith
  · rw [hx, fl_zero]
    exact fl_nonneg y (by linarith)
  · exact fl_mono_pos hx h

/-- A multiple of `2 ^ e`, with `e` at or above the last place, is its own rounding. -/
theorem fl_of_multiple (q : ℚ) (m e : Int) (hq : q = (m : ℚ) * pow2 e) (he : expo q ≤ e) :
    fl q = q := by
  by_cases h0 : q = 0
  · rw [h0, fl_zero]
  · have hp := pow2_pos (expo q)
    rw [fl_eq q h0]
    obtain ⟨n, hn⟩ := Int.eq_ofNat_of_zero_le (show 0 ≤ e - expo q by omega)
    have hpe : pow2 e = ((2 ^ n : Nat) : ℚ) * pow2 (expo q) := by
      have : e = (n : Int) + expo q := by omega
      rw [this, pow2_add, pow2_eq (n : Int)]
      simp
    have hdiv : q / pow2 (expo q) = ((m * ((2 ^ n : Nat) : Int) : Int) : ℚ) := by
      rw [div_eq_iff hp.ne']
      calc q = (m : ℚ) * pow2 e := hq
        _ = ((m * ((2 ^ n : Nat) : Int) : Int) : ℚ) * pow2 (expo q) := by
            rw [hpe]
            push_cast
            ring
    rw [hdiv, round_even_int, ← hdiv]
    exact div_mul_cancel₀ q hp.ne'

/-- Integers of magnitude below `2 ^ 53` are binary64 numbers. -/
theorem fl_int (n : Int) (h : |n| < 2 ^ 53) : fl (n : ℚ) = n := by
  by_cases h0 : (n : ℚ) = 0
  · rw [h0, fl_zero]
  · apply fl_of_multiple _ n 0
    · simp [pow2]
    · unfold expo
      have hq : |(n : ℚ)| ≤ pow2 53 := by
        have : |(n : ℚ)| < 2 ^ 53 := by exact_mod_cast h
        have e : pow2 53 = 2 ^ 53 := by
          rw [pow2_eq]
          norm_cast
        rw [e]
        exact this.le
      have hk : ilog2 (n : ℚ) < 53 := by
        obtain ⟨s1, _⟩ := ilog2_spec _ h0
        by_contra hc
        have := pow2_le_pow2 (not_lt.1 hc)
        have e : pow2 53 = 2 ^ 53 := by
          rw [pow2_eq]
          norm_cast
        have hlt : |(n : ℚ)| < 2 ^ 53 := by exact_mod_cast h
        rw [e] at this
        linarith
      exact max_le (by omega) (by omega)

theorem fl_abs_le (q : ℚ) (k : Int) (hk : -1021 ≤ k) (h : |q| ≤ pow2 k) :
    |fl q| ≤ pow2 k + pow2 (k - 53) := by
  have h1 := fl_abs_err q k hk h
  have h2 : |fl q| ≤ |fl q - q| + |q| := by
    have := abs_add (fl q - q) q
    simpa using this
  linarith

/-- No overflow on a bounded range: the result is the rounded value. -/
theorem round64_fin (q : ℚ) (h : |q| ≤ pow2 1000) : round64 q = Dbl.fin (fl q) := by
  have h1 := fl_abs_le q 1000 (by norm_num) h
  have h2 : pow2 1000 + pow2 (1000 - 53) < pow2 1024 := by
    have a : pow2 (1000 - 53) < pow2 1000 := pow2_lt_pow2 (by norm_num)
    have b : pow2 1024 = pow2 1000 * pow2 24 := by
      rw [← pow2_add]
      norm_num
    have c : (2 : ℚ) ≤ pow2 24 := by
      rw [pow2_eq]
      norm_num
    have d := pow2_pos 1000
    have e : pow2 1000 * 2 ≤ pow2 1000 * pow2 24 := mul_le_mul_of_nonneg_left c d.le
    rw [b]
    linarith
  rw [abs_le] at h1
  unfold round64
  rw [if_neg (by linarith), if_neg (by linarith)]

theorem eps_eq : eps = pow2 (8 - 53) := by
  rw [pow2_eq, eps]
  norm_num

theorem eps_pos : 0 < eps := by
  rw [eps]
  norm_num

theorem eps_small : eps ≤ 1 / 1000000 := by
  rw [eps]
  norm_num

theorem pow2_8 : pow2 8 = 256 := by
  rw [pow2_eq]
  norm_num

theorem le_pow2_1000 : (256 : ℚ) ≤ pow2 1000 := by
  rw [← pow2_8]
  exact pow2_le_pow2 (by norm_num)

/-- One rounding of a value of magnitude at most 256 moves it by at most `eps`. -/
theorem fl_near (x : ℚ) (h : |x| ≤ 256) : |fl x - x| ≤ eps := by
  rw [eps_eq]
  exact fl_abs_err x 8 (by norm_num) (by rw [pow2_8]; exact h)

theorem fl_close (x y d : ℚ) (hx : |x| ≤ 256) (h : |x - y| ≤ d) : |fl x - y| ≤ d + eps := by
  have h1 := fl_near x hx
  have h2 : fl x - y = (fl x - x) + (x - y) := by ring
  rw [h2]
  exact le_trans (abs_add _ _) (by linarith)

theorem round64_small (x : ℚ) (h : |x| ≤ 256) : round64 x = Dbl.fin (fl x) :=
  round64_fin x (le_trans h le_pow2_1000)

theorem ofInt_small (n : Int) (h : |n| ≤ 256) : Dbl.ofInt n = Dbl.fin n := by
  unfold Dbl.ofInt
  have hq : |(n : ℚ)| ≤ 256 := by exact_mod_cast h
  rw [round64_small _ hq, fl_int]
  have : |n| < 2 ^ 53 := lt_of_le_of_lt h (by norm_num)
  exact this

theorem ofInt_two : Dbl.ofInt 2 = Dbl.fin 2 := by
  have := ofInt_small 2 (by norm_num)
  simpa using this

theorem add_fin (a b : ℚ) (h : |a + b| ≤ 256) :
    Dbl.add (Dbl.fin a) (Dbl.fin b) = Dbl.fin (fl (a + b)) := by
  simp only [Dbl.add]
  exact round64_small _ h

theorem sub_fin (a b : ℚ) (h : |a - b| ≤ 256) :
    Dbl.sub (Dbl.fin a) (Dbl.fin b) = Dbl.fin (fl (a - b)) := by
  simp only [Dbl.sub, Dbl.neg, Dbl.add]
  rw [← sub_eq_add_neg]
  exact round64_small _ h

theorem mul_fin (a b : ℚ) (h : |a * b| ≤ 256) :
    Dbl.mul (Dbl.fin a) (Dbl.fin b) = Dbl.fin (fl (a * b)) := by
  simp only [Dbl.mul]
  exact round64_small _ h

theorem half_fin (a : ℚ) (h : |a| ≤ 256) :
    Dbl.div (Dbl.fin a) (Dbl.ofInt 2) = Dbl.fin (fl (a / 2)) := by
  rw [ofInt_two]
  simp only [Dbl.div]
  rw [if_neg (by norm_num)]
  apply round64_small
  rw [abs_le] at h ⊢
  constructor <;> linarith

theorem fmin_fin (a b : ℚ) : fmin (Dbl.fin a) (Dbl.fin b) = Dbl.fin (min a b) := by
  simp only [fmin, Dbl.isnan, Dbl.blt]
  by_cases h : b < a
  · simp [h, min_eq_right h.le]
  · simp [h, min_eq_left (not_lt.1 h)]

theorem fmax_fin (a b : ℚ) : fmax (Dbl.fin a) (Dbl.fin b) = Dbl.fin (max a b) := by
  simp only [fmax, Dbl.isnan, Dbl.blt]
  by_cases h : a < b
  · simp [h, max_eq_right h.le]
  · simp [h, max_eq_left (not_lt.1 h)]

/-- Clamping any width that is not negative against a finite `L ≥ 0` gives a finite width in
`[0, L]`. -/
theorem fmin_width (w1 : Dbl) (L : ℚ) (hw : nonneg_like w1) (hL : 0 ≤ L) :
    ∃ w2, fmin w1 (Dbl.fin L) = Dbl.fin w2 ∧ 0 ≤ w2 ∧ w2 ≤ L := by
  cases w1 with
  | fin w =>
    refine ⟨min w L, fmin_fin w L, le_min hw hL, min_le_right _ _⟩
  | pinf => exact ⟨L, by simp [fmin, Dbl.isnan, Dbl.blt], hL, le_refl _⟩
  | ninf => exact absurd hw (by simp [nonneg_like])
  | nan => exact ⟨L, by simp [fmin, Dbl.isnan], hL, le_refl _⟩

/-- Clamping any centre, finite or not, between finite bounds gives a finite centre that is
at least the lower bound and at most the larger of the two bounds. -/
theorem clamp_centre (c1 : Dbl) (u l : ℚ) :
    ∃ c2, fmax (fmin c1 (Dbl.fin u)) (Dbl.fin l) = Dbl.fin c2 ∧ l ≤ c2 ∧ c2 ≤ max u l := by
  cases c1 with
  | fin c =>
    refine ⟨max (min c u) l, by rw [fmin_fin, fmax_fin], le_max_right _ _, ?_⟩
    exact max_le_max (min_le_right _ _) (le_refl _)
  | pinf =>
    refine ⟨max u l, ?_, le_max_right _ _, le_refl _⟩
    have : fmin Dbl.pinf (Dbl.fin u) = Dbl.fin u := by simp [fmin, Dbl.isnan, Dbl.blt]
    rw [this, fmax_fin]
  | ninf =>
    refine ⟨l, ?_, le_refl _, le_max_right _ _⟩
    have : fmin Dbl.ninf (Dbl.fin u) = Dbl.ninf := by simp [fmin, Dbl.isnan, Dbl.blt]
    rw [this]
    simp [fmax, Dbl.isnan, Dbl.blt]
  | nan =>
    refine ⟨max u l, ?_, le_max_right _ _, le_refl _⟩
    have : fmin Dbl.nan (Dbl.fin u) = Dbl.fin u := by simp [fmin, Dbl.isnan]
    rw [this, fmax_fin]

theorem nonneg_like_round64 (q : ℚ) (h : 0 ≤ q) : nonneg_like (round64 q) := by
  have hf := fl_nonneg q h
  have hp := pow2_pos 1024
  unfold round64
  by_cases h1 : pow2 1024 ≤ fl q
  · rw [if_pos h1]
    trivial
  · rw [if_neg h1]
    rw [if_neg (by linarith)]
    exact hf

theorem nonneg_like_mul (x y : Dbl) (hx : nonneg_like x) (hy : nonneg_like y) :
    nonneg_like (Dbl.mul x y) := by
  cases x with
  | fin a =>
    cases y with
    | fin b => exact nonneg_like_round64 _ (mul_nonneg hx hy)
    | pinf =>
      simp only [Dbl.mul, inf_of_sign]
      have ha : 0 ≤ a := hx
      split_ifs with h1 h2
      · trivial
      · trivial
      · exact absurd (lt_of_le_of_ne ha (Ne.symm h1)) h2
    | ninf => exact absurd hy (by simp [nonneg_like])
    | nan => trivial
  | pinf =>
    cases y with
    | fin b =>
      simp only [Dbl.mul, inf_of_sign]
      have hb : 0 ≤ b := hy
      split_ifs with h1 h2
      · trivial
      · trivial
      · exact absurd (lt_of_le_of_ne hb (Ne.symm h1)) h2
    | pinf => trivial
    | ninf => exact absurd hy (by simp [nonneg_like])
    | nan => trivial
  | ninf => exact absurd hx (by simp [nonneg_like])
  | nan =>
    cases y <;> trivial

theorem nonneg_like_half (x : Dbl) (hx : nonneg_like x) :
    nonneg_like (Dbl.div x (Dbl.ofInt 2)) := by
  rw [ofInt_two]
  cases x with
  | fin a =>
    simp only [Dbl.div]
    rw [if_neg (by norm_num)]
    exact nonneg_like_round64 _ (div_nonneg hx (by norm_num))
  | pinf => simp [Dbl.div, nonneg_like]
  | ninf => exact absurd hx (by simp [nonneg_like])
  | nan => trivial

theorem abs_le_of_close (x y d M : ℚ) (h : |x - y| ≤ d) (hy : |y| ≤ M) : |x| ≤ M + d := by
  rw [abs_le] at h hy ⊢
  constructor <;> linarith

/-- Lines 95-98 in binary64, for any centre and any width that is not negative: the viewport
written back is finite, ordered, and inside the limits up to a few roundings. -/
theorem recentre_general (lo hi : ℚ) (hr : limits_range lo hi) (c1 w1 : Dbl)
    (hw : nonneg_like w1) :
    ∃ a' b', recentre { A := Dbl.fin lo, B := Dbl.fin hi } c1 w1
        = { A := Dbl.fin a', B := Dbl.fin b' } ∧
      lo - 2 * eps ≤ a' ∧ a' ≤ b' ∧ b' ≤ hi + 5 * eps := by
  obtain ⟨h1, h2, h3⟩ := hr
  have he := eps_small
  have he0 := eps_pos
  -- the width of the limits
  have hLb : |hi - lo| ≤ 256 := by
    rw [abs_le]
    constructor <;> linarith
  have hL := sub_fin hi lo hLb
  have hL0 : 0 ≤ fl (hi - lo) := fl_nonneg _ (by linarith)
  have hLn := fl_near (hi - lo) hLb
  rw [abs_le] at hLn
  -- the clamped width
  obtain ⟨w2, hw2, hw20, hw2L⟩ := fmin_width w1 (fl (hi - lo)) hw hL0
  -- half of it
  have hw2b : |w2| ≤ 256 := by
    rw [abs_le]
    constructor <;> linarith
  have hh := half_fin w2 hw2b
  have hh0 : 0 ≤ fl (w2 / 2) := fl_nonneg _ (by linarith)
  have hhb : |w2 / 2| ≤ 256 := by
    rw [abs_le]
    constructor <;> linarith
  have hhn := fl_near (w2 / 2) hhb
  rw [abs_le] at hhn
  set h := fl (w2 / 2) with hh_def
  -- the bounds of the centre
  have hub : |hi - h| ≤ 256 := by
    rw [abs_le]
    constructor <;> linarith
  have hlb : |lo + h| ≤ 256 := by
    rw [abs_le]
    constructor <;> linarith
  have hu := sub_fin hi h hub
  have hl := add_fin lo h hlb
  have hun := fl_near (hi - h) hub
  have hln := fl_near (lo + h) hlb
  rw [abs_le] at hun hln
  obtain ⟨c2, hc2, hc2l, hc2u⟩ := clamp_centre c1 (fl (hi - h)) (fl (lo + h))
  have hc2u' : c2 ≤ fl (hi - h) ∨ c2 ≤ fl (lo + h) := by
    rcases le_total (fl (hi - h)) (fl (lo + h)) with hle | hle
    · right
      rwa [max_eq_right hle] at hc2u
    · left
      rwa [max_eq_left hle] at hc2u
  have hc2b : -100 ≤ c2 ∧ c2 ≤ 100 := by
    constructor
    · linarith
    · rcases hc2u' with hc | hc <;> linarith
  have hab : |c2 - h| ≤ 256 := by
    rw [abs_le]
    constructor <;> linarith
  have hbb : |c2 + h| ≤ 256 := by
    rw [abs_le]
    constructor <;> linarith
  have hA := sub_fin c2 h hab
  have hB := add_fin c2 h hbb
  have hAn := fl_near (c2 - h) hab
  have hBn := fl_near (c2 + h) hbb
  rw [abs_le] at hAn hBn
  refine ⟨fl (c2 - h), fl (c2 + h), ?_, ?_, ?_, ?_⟩
  · simp only [recentre, hL, hw2, hh, hu, hl, hc2, hA, hB]
  · linarith
  · exact fl_mono (by linarith)
  · rcases hc2u' with hc | hc <;> linarith

/-- Lines 95-98 in binary64 follow lines 95-98 in exact arithmetic: when centre and width are
within `dc` and `dw` of exact values, each end of the viewport written back is within
`dc + dw + 6 * eps` of the exact one. -/
theorem recentre_close (lo hi : ℚ) (hr : limits_range lo hi) (c1 w1 c w dc dw : ℚ)
    (hw1 : |w1| ≤ 200) (hc : |c1 - c| ≤ dc) (hw : |w1 - w| ≤ dw) :
    ∃ a' b', recentre { A := Dbl.fin lo, B := Dbl.fin hi } (Dbl.fin c1) (Dbl.fin w1)
        = { A := Dbl.fin a', B := Dbl.fin b' } ∧
      |a' - (Rambajz.recentre { A := lo, B := hi } c w).A| ≤ dc + dw + 6 * eps ∧
      |b' - (Rambajz.recentre { A := lo, B := hi } c w).B| ≤ dc + dw + 6 * eps := by
  obtain ⟨h1, h2, h3⟩ := hr
  have he := eps_small
  have he0 := eps_pos
  have hdc0 : 0 ≤ dc := le_trans (abs_nonneg _) hc
  have hdw0 : 0 ≤ dw := le_trans (abs_nonneg _) hw
  have hLb : |hi - lo| ≤ 256 := by
    rw [abs_le]
    constructor <;> linarith
  have hL := sub_fin hi lo hLb
  have hLn := fl_near (hi - lo) hLb
  set L1 := fl (hi - lo) with hL1
  have hLabs : |L1| ≤ 65 := by
    have := abs_le_of_close L1 (hi - lo) eps 64 hLn (by rw [abs_le]; constructor <;> linarith)
    linarith
  -- clamped width
  have hw2 := fmin_fin w1 L1
  set w2 := min w1 L1 with hw2d
  have hw2c : |w2 - min w (hi - lo)| ≤ dw + eps := by
    refine le_trans (abs_min_sub_min_le_max _ _ _ _) (max_le (by linarith) (by linarith))
  have hw2b : |w2| ≤ 200 := by
    rw [abs_le] at hw1 hLabs ⊢
    exact ⟨le_min (by linarith) (by linarith), le_trans (min_le_left _ _) hw1.2⟩
  have hw2b' : |w2| ≤ 256 := le_trans hw2b (by norm_num)
  have hh := half_fin w2 hw2b'
  have hhb : |w2 / 2| ≤ 100 := by
    rw [abs_le] at hw2b ⊢
    constructor <;> linarith
  have hhc : |fl (w2 / 2) - min w (hi - lo) / 2| ≤ dw / 2 + 2 * eps := by
    have := fl_close (w2 / 2) (min w (hi - lo) / 2) ((dw + eps) / 2)
      (le_trans hhb (by norm_num)) (by
        rw [show w2 / 2 - min w (hi - lo) / 2 = (w2 - min w (hi - lo)) / 2 by ring, abs_div]
        rw [abs_of_pos (show (0 : ℚ) < 2 by norm_num)]
        linarith)
    linarith
  have hhn := fl_near (w2 / 2) (le_trans hhb (by norm_num))
  have hhabs : |fl (w2 / 2)| ≤ 101 := by
    have := abs_le_of_close _ _ _ _ hhn hhb
    linarith
  set h := fl (w2 / 2) with hh_def
  set hx := min w (hi - lo) / 2 with hx_def
  rw [abs_le] at hhabs
  have hub : |hi - h| ≤ 256 := by
    rw [abs_le]
    constructor <;> linarith
  have hlb : |lo + h| ≤ 256 := by
    rw [abs_le]
    constructor <;> linarith
  have hu := sub_fin hi h hub
  have hl := add_fin lo h hlb
  have huc : |fl (hi - h) - (hi - hx)| ≤ dw / 2 + 3 * eps := by
    have := fl_close (hi - h) (hi - hx) (dw / 2 + 2 * eps) hub (by
      rw [show hi - h - (hi - hx) = -(h - hx) by ring, abs_neg]
      exact hhc)
    linarith
  have hlc : |fl (lo + h) - (lo + hx)| ≤ dw / 2 + 3 * eps := by
    have := fl_close (lo + h) (lo + hx) (dw / 2 + 2 * eps) hlb (by
      rw [show lo + h - (lo + hx) = h - hx by ring]
      exact hhc)
    linarith
  have hun := fl_near (hi - h) hub
  have hln := fl_near (lo + h) hlb
  have huabs : |fl (hi - h)| ≤ 134 := by
    have := abs_le_of_close _ _ _ 133 hun (by rw [abs_le]; constructor <;> linarith)
    linarith
  have hlabs : |fl (lo + h)| ≤ 134 := by
    have := abs_le_of_close _ _ _ 133 hln (by rw [abs_le]; constructor <;> linarith)
    linarith
  set u := fl (hi - h) with hu_def
  set l := fl (lo + h) with hl_def
  -- clamped centre
  have hc2c : |max (min c1 u) l - max (min c (hi - hx)) (lo + hx)| ≤ dc + dw / 2 + 3 * eps := by
    refine le_trans (abs_max_sub_max_le_max _ _ _ _) (max_le ?_ (by linarith))
    refine le_trans (abs_min_sub_min_le_max _ _ _ _) (max_le (by linarith) (by linarith))
  have hc2abs : |max (min c1 u) l| ≤ 134 := by
    rw [abs_le] at huabs hlabs ⊢
    constructor
    · exact le_trans hlabs.1 (le_max_right _ _)
    · exact max_le (le_trans (min_le_right _ _) huabs.2) hlabs.2
  set c2 := max (min c1 u) l with hc2_def
  set cx := max (min c (hi - hx)) (lo + hx) with hcx_def
  rw [abs_le] at hc2abs
  have hab : |c2 - h| ≤ 256 := by
    rw [abs_le]
    constructor <;> linarith
  have hbb : |c2 + h| ≤ 256 := by
    rw [abs_le]
    constructor <;> linarith
  have hA := sub_fin c2 h hab
  have hB := add_fin c2 h hbb
  refine ⟨fl (c2 - h), fl (c2 + h), ?_, ?_, ?_⟩
  · simp only [recentre, hL, hw2, hh, hu, hl, fmin_fin, fmax_fin, hA, hB]
  · have e : (Rambajz.recentre { A := lo, B := hi } c w).A = cx - hx := by
      simp only [Rambajz.recentre, hcx_def, hx_def]
    rw [e]
    have := fl_close (c2 - h) (cx - hx) (dc + dw / 2 + 3 * eps + (dw / 2 + 2 * eps)) hab (by
      rw [show c2 - h - (cx - hx) = (c2 - cx) + -(h - hx) by ring]
      refine le_trans (abs_add _ _) ?_
      rw [abs_neg]
      linarith)
    linarith
  · have e : (Rambajz.recentre { A := lo, B := hi } c w).B = cx + hx := by
      simp only [Rambajz.recentre, hcx_def, hx_def]
    rw [e]
    have := fl_close (c2 + h) (cx + hx) (dc + dw / 2 + 3 * eps + (dw / 2 + 2 * eps)) hbb (by
      rw [show c2 + h - (cx + hx) = (c2 - cx) + (h - hx) by ring]
      refine le_trans (abs_add _ _) ?_
      linarith)
    linarith

theorem zoom_eq : zoom = Dbl.fin 2 := ofInt_two

theorem shift_eq : shift = Dbl.fin (1 / 4) := by decide!

/-- Lines 62-63 in binary64 on a finite viewport, against the exact centre and width. -/
theorem centre_width_close (a1 b1 a b d : ℚ) (ha1 : |a1| ≤ 40) (hb1 : |b1| ≤ 40)
    (ha : |a1 - a| ≤ d) (hb : |b1 - b| ≤ d) :
    ∃ c1 w1, center_of { A := Dbl.fin a1, B := Dbl.fin b1 } = Dbl.fin c1 ∧
      width_of { A := Dbl.fin a1, B := Dbl.fin b1 } = Dbl.fin w1 ∧
      w1 = fl (b1 - a1) ∧
      |c1| ≤ 50 ∧ |w1| ≤ 90 ∧
      |c1 - (a + b) / 2| ≤ d + 2 * eps ∧ |w1 - (b - a)| ≤ 2 * d + eps := by
  have he := eps_small
  have he0 := eps_pos
  rw [abs_le] at ha1 hb1
  have hs : |a1 + b1| ≤ 256 := by
    rw [abs_le]
    constructor <;> linarith
  have hd : |b1 - a1| ≤ 256 := by
    rw [abs_le]
    constructor <;> linarith
  have hsn := fl_near (a1 + b1) hs
  have hsabs : |fl (a1 + b1)| ≤ 81 := by
    have := abs_le_of_close _ _ _ 80 hsn (by rw [abs_le]; constructor <;> linarith)
    linarith
  have hsb : |fl (a1 + b1)| ≤ 256 := le_trans hsabs (by norm_num)
  have hhalf : |fl (a1 + b1) / 2| ≤ 41 := by
    rw [abs_le] at hsabs ⊢
    constructor <;> linarith
  have hcn := fl_near (fl (a1 + b1) / 2) (le_trans hhalf (by norm_num))
  have hdn := fl_near (b1 - a1) hd
  refine ⟨fl (fl (a1 + b1) / 2), fl (b1 - a1), ?_, ?_, rfl, ?_, ?_, ?_, ?_⟩
  · simp only [center_of]
    rw [add_fin a1 b1 hs, half_fin _ hsb]
  · simp only [width_of]
    rw [sub_fin b1 a1 hd]
  · have := abs_le_of_close _ _ _ 41 hcn hhalf
    linarith
  · have := abs_le_of_close _ _ _ 80 hdn (by rw [abs_le]; constructor <;> linarith)
    linarith
  · rw [abs_le] at ha hb hsn hcn ⊢
    constructor <;> linarith
  · rw [abs_le] at ha hb hdn ⊢
    constructor <;> linarith

/-- Lines 64-84 in binary64 on finite centre and width, against the exact branch. -/
theorem key_switch_close (key : Nat) (c1 w1 c w dc dw : ℚ) (hc1 : |c1| ≤ 50) (hw1 : |w1| ≤ 90)
    (hc : |c1 - c| ≤ dc) (hw : |w1 - w| ≤ dw) :
    ∃ cK wK, key_switch key (Dbl.fin c1) (Dbl.fin w1) = (Dbl.fin cK, Dbl.fin wK) ∧
      |wK| ≤ 200 ∧
      |cK - (Rambajz.key_switch key c w).1| ≤ dc + dw + 2 * eps ∧
      |wK - (Rambajz.key_switch key c w).2| ≤ 2 * dw + eps := by
  have he := eps_small
  have he0 := eps_pos
  have hdc0 : 0 ≤ dc := le_trans (abs_nonneg _) hc
  have hdw0 : 0 ≤ dw := le_trans (abs_nonneg _) hw
  have hw1' : |w1| ≤ 256 := le_trans hw1 (by norm_num)
  have hw1le := hw1
  rw [abs_le] at hw1le hc1
  unfold key_switch Rambajz.key_switch
  by_cases hJ : key = SDL_SCANCODE_J
  · rw [if_pos hJ, if_pos hJ, zoom_eq, ← ofInt_two, half_fin w1 hw1']
    have hb : |w1 / 2| ≤ 256 := by
      rw [abs_le]
      constructor <;> linarith
    have hn := fl_near (w1 / 2) hb
    refine ⟨c1, fl (w1 / 2), rfl, ?_, ?_, ?_⟩
    · have := abs_le_of_close _ _ _ 45 hn (by rw [abs_le]; constructor <;> linarith)
      linarith
    · linarith
    · simp only [Rambajz.zoom]
      rw [abs_le] at hw hn ⊢
      constructor <;> linarith
  · rw [if_neg hJ, if_neg hJ]
    by_cases hK : key = SDL_SCANCODE_K
    · rw [if_pos hK, if_pos hK, zoom_eq]
      have hb : |w1 * 2| ≤ 256 := by
        rw [abs_le]
        constructor <;> linarith
      have hn := fl_near (w1 * 2) hb
      rw [mul_fin w1 2 hb]
      refine ⟨c1, fl (w1 * 2), rfl, ?_, ?_, ?_⟩
      · have := abs_le_of_close _ _ _ 180 hn (by rw [abs_le]; constructor <;> linarith)
        linarith
      · linarith
      · simp only [Rambajz.zoom]
        rw [abs_le] at hw hn ⊢
        constructor <;> linarith
    · rw [if_neg hK, if_neg hK]
      have hb : |w1 * (1 / 4)| ≤ 256 := by
        rw [abs_le]
        constructor <;> linarith
      have hn := fl_near (w1 * (1 / 4)) hb
      have hsh : |fl (w1 * (1 / 4))| ≤ 23 := by
        have := abs_le_of_close _ _ _ (45 / 2) hn (by rw [abs_le]; constructor <;> linarith)
        linarith
      rw [abs_le] at hsh
      by_cases hH : key = SDL_SCANCODE_H
      · rw [if_pos hH, if_pos hH, shift_eq, mul_fin w1 (1 / 4) hb]
        have hb2 : |c1 - fl (w1 * (1 / 4))| ≤ 256 := by
          rw [abs_le]
          constructor <;> linarith
        have hn2 := fl_near _ hb2
        rw [sub_fin _ _ hb2]
        refine ⟨_, w1, rfl, by linarith, ?_, by linarith⟩
        simp only [Rambajz.shift]
        rw [abs_le] at hw hc hn hn2 ⊢
        constructor <;> linarith
      · rw [if_neg hH, if_neg hH]
        by_cases hL : key = SDL_SCANCODE_L
        · rw [if_pos hL, if_pos hL, shift_eq, mul_fin w1 (1 / 4) hb]
          have hb2 : |c1 + fl (w1 * (1 / 4))| ≤ 256 := by
            rw [abs_le]
            constructor <;> linarith
          have hn2 := fl_near _ hb2
          rw [add_fin _ _ hb2]
          refine ⟨_, w1, rfl, by linarith, ?_, by linarith⟩
          simp only [Rambajz.shift]
          rw [abs_le] at hw hc hn hn2 ⊢
          constructor <;> linarith
        · rw [if_neg hL, if_neg hL]
          exact ⟨c1, w1, rfl, by linarith, by linarith, by linarith⟩

/-- The scancode that reaches the `switch` of lines 68-83: that of the event when it is a key
press handled with no modifier active, and otherwise one that selects `default`. -/
theorem loop_body_key_eq (expf : Dbl → Dbl) (s : loop_state Dbl) (p : polled)
    (hq : p.ev.type ≠ SDL_QUIT) (hw : p.ev.type ≠ SDL_MOUSEWHEEL) :
    (loop_body expf s p).2.statics =
      { viewport := recentre s.statics.limits
          (key_switch (if p.ev.type = SDL_KEYDOWN ∧ (p.modstate &&& blacklist) = 0
              then p.ev.scancode else 0)
            (center_of s.statics.viewport) (width_of s.statics.viewport)).1
          (key_switch (if p.ev.type = SDL_KEYDOWN ∧ (p.modstate &&& blacklist) = 0
              then p.ev.scancode else 0)
            (center_of s.statics.viewport) (width_of s.statics.viewport)).2,
        limits := s.statics.limits } := by
  by_cases hk : p.ev.type = SDL_KEYDOWN ∧ (p.modstate &&& blacklist) = 0
  · simp [loop_body, hk]
  · simp [loop_body, hq, hw, hk, key_switch]

end B64

/-- The exact counterpart of `B64.loop_body_key_eq`. -/
theorem loop_body_key_eq_exact {α : Type} [LinearOrderedField α] (expf : α → α) (s : loop_state α)
    (p : polled) (hq : p.ev.type ≠ SDL_QUIT) (hw : p.ev.type ≠ SDL_MOUSEWHEEL) :
    (loop_body expf s p).2.statics =
      { viewport := recentre s.statics.limits
          (key_switch (if p.ev.type = SDL_KEYDOWN ∧ (p.modstate &&& blacklist) = 0
              then p.ev.scancode else 0)
            ((s.statics.viewport.A + s.statics.viewport.B) / 2)
            (s.statics.viewport.B - s.statics.viewport.A)).1
          (key_switch (if p.ev.type = SDL_KEYDOWN ∧ (p.modstate &&& blacklist) = 0
              then p.ev.scancode else 0)
            ((s.statics.viewport.A + s.statics.viewport.B) / 2)
            (s.statics.viewport.B - s.statics.viewport.A)).2,
        limits := s.statics.limits } := by
  by_cases hk : p.ev.type = SDL_KEYDOWN ∧ (p.modstate &&& blacklist) = 0
  · simp [loop_body, hk]
  · simp [loop_body, hq, hw, hk, key_switch]

namespace B64

/-- One iteration of the event loop in binary64 follows the same iteration in exact
arithmetic: on an event other than quit and wheel, from a finite viewport within `d` of the
exact viewport `(a, b)`, each end of the new viewport is within `7 * d + 14 * eps` of the end
the exact iteration computes, and the limits are kept. -/
theorem step_close (expf : Dbl → Dbl) (s : loop_state Dbl) (p : polled)
    (a1 b1 a b lo hi d : ℚ) (hs : holds s.statics a1 b1 lo hi) (hr : limits_range lo hi)
    (ha1 : |a1| ≤ 40) (hb1 : |b1| ≤ 40) (ha : |a1 - a| ≤ d) (hb : |b1 - b| ≤ d)
    (hq : p.ev.type ≠ SDL_QUIT) (hw : p.ev.type ≠ SDL_MOUSEWHEEL) :
    ∃ a' b', holds (loop_body expf s p).2.statics a' b' lo hi ∧
      |a' - (Rambajz.loop_body (fun x : ℚ => x)
          { statics := { viewport := { A := a, B := b }, limits := { A := lo, B := hi } },
            sdl := s.sdl } p).2.statics.viewport.A| ≤ 7 * d + 14 * eps ∧
      |b' - (Rambajz.loop_body (fun x : ℚ => x)
          { statics := { viewport := { A := a, B := b }, limits := { A := lo, B := hi } },
            sdl := s.sdl } p).2.statics.viewport.B| ≤ 7 * d + 14 * eps := by
  obtain ⟨hv, hl⟩ := hs
  have hd0 : 0 ≤ d := le_trans (abs_nonneg _) ha
  have he0 := eps_pos
  obtain ⟨c1, w1, hc1, hw1, _, hc1b, hw1b, hcc, hwc⟩ :=
    centre_width_close a1 b1 a b d ha1 hb1 ha hb
  obtain ⟨cK, wK, hks, hwKb, hcK, hwK⟩ :=
    key_switch_close (if p.ev.type = SDL_KEYDOWN ∧ (p.modstate &&& blacklist) = 0
      then p.ev.scancode else 0) c1 w1 ((a + b) / 2) (b - a) _ _ hc1b hw1b hcc hwc
  obtain ⟨a', b', hrec, hA, hB⟩ := recentre_close lo hi hr cK wK _ _ _ _ hwKb hcK hwK
  refine ⟨a', b', ?_, ?_, ?_⟩
  · rw [loop_body_key_eq expf s p hq hw, hv, hl, hc1, hw1, hks]
    exact ⟨hrec, rfl⟩
  · rw [Rambajz.loop_body_key_eq_exact _ _ p hq hw]
    refine le_trans hA ?_
    linarith
  · rw [Rambajz.loop_body_key_eq_exact _ _ p hq hw]
    refine le_trans hB ?_
    linarith

end B64

/-! ## Key presses in binary64 -/

namespace B64

theorem tol_eq : tol = 16 * eps := by
  rw [tol, eps]
  norm_num

theorem tol2_eq : tol2 = 128 * eps := by
  rw [tol2, eps]
  norm_num

theorem ends_of_exact (v : viewport_t ℚ) :
    v.A = Rambajz.centre_of v - Rambajz.width_of v / 2 ∧
      v.B = Rambajz.centre_of v + Rambajz.width_of v / 2 := by
  simp only [Rambajz.centre_of, Rambajz.width_of]
  constructor <;> ring

theorem abs_le_40 (x lo hi : ℚ) (hr : limits_range lo hi) (h1 : lo - 1 ≤ x) (h2 : x ≤ hi + 1) :
    |x| ≤ 40 := by
  obtain ⟨r1, r2, r3⟩ := hr
  rw [abs_le]
  constructor <;> linarith

/-- One iteration in binary64 from a viewport inside the limits, against the exact one. -/
theorem step_close_contained (expf : Dbl → Dbl) (s : loop_state Dbl) (p : polled)
    (a b lo hi : ℚ) (hs : holds s.statics a b lo hi) (hr : limits_range lo hi)
    (hc : lo ≤ a ∧ a ≤ b ∧ b ≤ hi)
    (hq : p.ev.type ≠ SDL_QUIT) (hw : p.ev.type ≠ SDL_MOUSEWHEEL) :
    ∃ a' b', holds (loop_body expf s p).2.statics a' b' lo hi ∧
      |a' - (Rambajz.loop_body (fun x : ℚ => x) (exact_state a b lo hi s.sdl)
          p).2.statics.viewport.A| ≤ tol ∧
      |b' - (Rambajz.loop_body (fun x : ℚ => x) (exact_state a b lo hi s.sdl)
          p).2.statics.viewport.B| ≤ tol := by
  have ha : |a| ≤ 40 := abs_le_40 a lo hi hr (by linarith [hc.1]) (by linarith [hc.2.1, hc.2.2])
  have hb : |b| ≤ 40 := abs_le_40 b lo hi hr (by linarith [hc.1, hc.2.1]) (by linarith [hc.2.2])
  obtain ⟨a', b', h1, h2, h3⟩ := step_close expf s p a b a b lo hi 0 hs hr ha hb
    (by simp) (by simp) hq hw
  refine ⟨a', b', h1, ?_, ?_⟩
  · rw [tol_eq]
    refine le_trans h2 ?_
    linarith [eps_pos]
  · rw [tol_eq]
    refine le_trans h3 ?_
    linarith [eps_pos]

/-- Right after the reset at 48 kHz the statics hold `(lo48, hi48)` twice. -/
theorem holds_reset_48k : holds reset_48k.statics lo48 hi48 lo48 hi48 :=
  ⟨by decide!, by decide!⟩

theorem limits_range_48k : limits_range lo48 hi48 := by
  unfold limits_range lo48 hi48
  norm_num

theorem unmodified_key_types (p : polled) (key : Nat) (h : unmodified_key p key) :
    p.ev.type ≠ SDL_QUIT ∧ p.ev.type ≠ SDL_MOUSEWHEEL := by
  obtain ⟨ht, _, _⟩ := h
  rw [ht]
  constructor <;> decide

/-- C6, counterexample. Right after the reset at 48 kHz the viewport equals the limits. A J
key press handled while shift is held, which the code ignores, still rewrites the viewport:
`viewport.A` goes from `0x1.7f7427b73e391p+1` to `0x1.7f7427b73e390p+1`. -/
theorem frame_other_events_counterexample :
    reset_48k.statics.viewport = reset_48k.statics.limits ∧
    reset_48k.statics.viewport.A = Dbl.fin (0x17f7427b73e391 / 2 ^ 51) ∧
    (loop_body libm_exp reset_48k (key_press SDL_SCANCODE_J 1)).2.statics.viewport.A
      = Dbl.fin (0x17f7427b73e390 / 2 ^ 51) ∧
    (loop_body libm_exp reset_48k (key_press SDL_SCANCODE_J 1)).2.statics.viewport
      ≠ reset_48k.statics.viewport := by
  decide!

/-- C6, amended. On a finite viewport inside limits within `[-32, 32]`, every event that is
neither a mouse-wheel event nor an H/J/K/L key press handled with no ctrl/shift/alt/gui/mode
modifier active applies no zoom, pan or wheel update: unless it is a quit event, the viewport
is rewritten by lines 95-98 from the centre and width that lines 62-63 compute from it; the
limits are unchanged, and each end of the viewport moves by at most `2 ^ (-41)`. -/
theorem frame_other_events (expf : Dbl → Dbl) (s : loop_state Dbl) (p : polled)
    (a b lo hi : ℚ) (hs : holds s.statics a b lo hi) (hr : limits_range lo hi)
    (hc : lo ≤ a ∧ a ≤ b ∧ b ≤ hi)
    (hw : p.ev.type ≠ SDL_MOUSEWHEEL)
    (hk : ¬ (p.ev.type = SDL_KEYDOWN ∧ no_modifier p.modstate ∧
      (p.ev.scancode = SDL_SCANCODE_H ∨ p.ev.scancode = SDL_SCANCODE_J ∨
       p.ev.scancode = SDL_SCANCODE_K ∨ p.ev.scancode = SDL_SCANCODE_L))) :
    (p.ev.type ≠ SDL_QUIT →
      (loop_body expf s p).2.statics.viewport
        = recentre s.statics.limits (center_of s.statics.viewport)
            (width_of s.statics.viewport)) ∧
    ∃ a' b', holds (loop_body expf s p).2.statics a' b' lo hi ∧
      |a' - a| ≤ tol ∧ |b' - b| ≤ tol := by
  constructor
  · intro hq
    rw [loop_body_key_eq expf s p hq hw]
    have hks : ∀ c w : Dbl, key_switch (if p.ev.type = SDL_KEYDOWN ∧
        (p.modstate &&& blacklist) = 0 then p.ev.scancode else 0) c w = (c, w) := by
      intro c w
      by_cases hkey : p.ev.type = SDL_KEYDOWN ∧ (p.modstate &&& blacklist) = 0
      · have hm : no_modifier p.modstate := (blacklist_zero_iff _).1 hkey.2
        have hH : p.ev.scancode ≠ SDL_SCANCODE_H := fun e => hk ⟨hkey.1, hm, Or.inl e⟩
        have hJ : p.ev.scancode ≠ SDL_SCANCODE_J := fun e => hk ⟨hkey.1, hm, Or.inr (Or.inl e)⟩
        have hK : p.ev.scancode ≠ SDL_SCANCODE_K :=
          fun e => hk ⟨hkey.1, hm, Or.inr (Or.inr (Or.inl e))⟩
        have hL : p.ev.scancode ≠ SDL_SCANCODE_L :=
          fun e => hk ⟨hkey.1, hm, Or.inr (Or.inr (Or.inr e))⟩
        rw [if_pos hkey]
        simp [key_switch, hH, hJ, hK, hL]
      · rw [if_neg hkey]
        simp [key_switch]
    rw [hks]
  · by_cases hq : p.ev.type = SDL_QUIT
    · refine ⟨a, b, ?_, ?_, ?_⟩
      · simp only [loop_body, hq, if_true]
        exact hs
      · simp [tol]
      · simp [tol]
    · obtain ⟨a', b', h1, h2, h3⟩ := step_close_contained expf s p a b lo hi hs hr hc hq hw
      have hex := frame_exact (fun x : ℚ => x) (exact_state a b lo hi s.sdl) p hc hw hk
      rw [hex] at h2 h3
      exact ⟨a', b', h1, h2, h3⟩

/-- Witness for C6 (amended): shift+J right after the reset at 48 kHz. -/
theorem frame_other_events_witness :
    holds reset_48k.statics (0x17f7427b73e391 / 2 ^ 51) (0x142bef2bec8b0e / 2 ^ 49)
      (0x17f7427b73e391 / 2 ^ 51) (0x142bef2bec8b0e / 2 ^ 49) ∧
    ∃ a' b', holds (loop_body libm_exp reset_48k (key_press SDL_SCANCODE_J 1)).2.statics a' b'
        (0x17f7427b73e391 / 2 ^ 51) (0x142bef2bec8b0e / 2 ^ 49) ∧
      |a' - 0x17f7427b73e391 / 2 ^ 51| ≤ tol ∧ |b' - 0x142bef2bec8b0e / 2 ^ 49| ≤ tol :=
  ⟨⟨by decide!, by decide!⟩,
   (frame_other_events libm_exp reset_48k (key_press SDL_SCANCODE_J 1) _ _ _ _
      ⟨by decide!, by decide!⟩ (by unfold limits_range; norm_num) (by norm_num)
      (by decide) (by decide)).2⟩

/-- C3, counterexample. Right after the reset at 48 kHz an unmodified J press does not give
exactly half the width: the new `B - A`, as a real number, differs from half the old one. -/
theorem apply_zoom_counterexample :
    reset_48k.statics.viewport = reset_48k.statics.limits ∧
    ∃ a b a' b' : ℚ,
      reset_48k.statics.viewport = { A := Dbl.fin a, B := Dbl.fin b } ∧
      (loop_body libm_exp reset_48k (key_press SDL_SCANCODE_J 0)).2.statics.viewport
        = { A := Dbl.fin a', B := Dbl.fin b' } ∧
      b' - a' ≠ (b - a) / 2 :=
  ⟨by decide!, 0x17f7427b73e391 / 2 ^ 51, 0x142bef2bec8b0e / 2 ^ 49,
    0x1312b08441badd / 2 ^ 50, 0x10a06788a8a684 / 2 ^ 49,
    by decide!, by decide!, by decide!⟩

/-- C3, amended. Zoom with factor 2 on a finite viewport `(a, b)`, of centre `c = (a + b) / 2`
and width `w = b - a`, inside limits `(lo, hi)` within `[-32, 32]`. An unmodified J press gives
a viewport whose ends are within `2 ^ (-41)` of `c - w / 4` and `c + w / 4`. An unmodified K
press gives a viewport whose ends are within `2 ^ (-41)` of `c' - w' / 2` and `c' + w' / 2`,
where `w' = min (2 * w) (hi - lo)` and `c'` is `c` clamped into
`[lo + w' / 2, hi - w' / 2]`; `c' = c` and `w' = 2 * w` when `[c - w, c + w]` fits inside the
limits. The limits are unchanged. -/
theorem apply_zoom_factor_two (expf : Dbl → Dbl) (s : loop_state Dbl) (p : polled)
    (a b lo hi : ℚ) (hs : holds s.statics a b lo hi) (hr : limits_range lo hi)
    (hc : lo ≤ a ∧ a ≤ b ∧ b ≤ hi) :
    (unmodified_key p SDL_SCANCODE_J →
      ∃ a' b', holds (loop_body expf s p).2.statics a' b' lo hi ∧
        |a' - ((a + b) / 2 - (b - a) / 4)| ≤ tol ∧
        |b' - ((a + b) / 2 + (b - a) / 4)| ≤ tol) ∧
    (unmodified_key p SDL_SCANCODE_K →
      ∃ a' b', holds (loop_body expf s p).2.statics a' b' lo hi ∧
        |a' - (max (lo + min (2 * (b - a)) (hi - lo) / 2)
                (min ((a + b) / 2) (hi - min (2 * (b - a)) (hi - lo) / 2))
              - min (2 * (b - a)) (hi - lo) / 2)| ≤ tol ∧
        |b' - (max (lo + min (2 * (b - a)) (hi - lo) / 2)
                (min ((a + b) / 2) (hi - min (2 * (b - a)) (hi - lo) / 2))
              + min (2 * (b - a)) (hi - lo) / 2)| ≤ tol ∧
        lo + min (2 * (b - a)) (hi - lo) / 2
          ≤ max (lo + min (2 * (b - a)) (hi - lo) / 2)
              (min ((a + b) / 2) (hi - min (2 * (b - a)) (hi - lo) / 2)) ∧
        max (lo + min (2 * (b - a)) (hi - lo) / 2)
            (min ((a + b) / 2) (hi - min (2 * (b - a)) (hi - lo) / 2))
          ≤ hi - min (2 * (b - a)) (hi - lo) / 2 ∧
        (lo ≤ (a + b) / 2 - (b - a) ∧ (a + b) / 2 + (b - a) ≤ hi →
          min (2 * (b - a)) (hi - lo) = 2 * (b - a) ∧
          max (lo + min (2 * (b - a)) (hi - lo) / 2)
              (min ((a + b) / 2) (hi - min (2 * (b - a)) (hi - lo) / 2)) = (a + b) / 2)) := by
  have hex := zoom_exact (fun x : ℚ => x) (exact_state a b lo hi s.sdl) p hc
  constructor
  · intro hj
    obtain ⟨hq, hw⟩ := unmodified_key_types p _ hj
    obtain ⟨a', b', h1, h2, h3⟩ := step_close_contained expf s p a b lo hi hs hr hc hq hw
    obtain ⟨e1, e2⟩ := hex.1 hj
    obtain ⟨f1, f2⟩ := ends_of_exact (Rambajz.loop_body (fun x : ℚ => x)
      (exact_state a b lo hi s.sdl) p).2.statics.viewport
    rw [f1, e1, e2] at h2
    rw [f2, e1, e2] at h3
    simp only [exact_state, Rambajz.centre_of, Rambajz.width_of] at h2 h3
    refine ⟨a', b', h1, ?_, ?_⟩
    · rw [show (a + b) / 2 - (b - a) / 4 = (a + b) / 2 - (b - a) / 2 / 2 by ring]
      exact h2
    · rw [show (a + b) / 2 + (b - a) / 4 = (a + b) / 2 + (b - a) / 2 / 2 by ring]
      exact h3
  · intro hk
    obtain ⟨hq, hw⟩ := unmodified_key_types p _ hk
    obtain ⟨a', b', h1, h2, h3⟩ := step_close_contained expf s p a b lo hi hs hr hc hq hw
    obtain ⟨e1, e2, e3, e4, e5⟩ := hex.2 hk
    obtain ⟨f1, f2⟩ := ends_of_exact (Rambajz.loop_body (fun x : ℚ => x)
      (exact_state a b lo hi s.sdl) p).2.statics.viewport
    rw [e1] at e2 e3 e4
    rw [f1, e2, e1] at h2
    rw [f2, e2, e1] at h3
    rw [e2] at e3 e4
    rw [e1, e2] at e5
    simp only [exact_state, Rambajz.centre_of, Rambajz.width_of] at h2 h3 e3 e4 e5
    exact ⟨a', b', h1, h2, h3, e3, e4, e5⟩

/-- Witness for C3 (amended): J, and K, right after the reset at 48 kHz. -/
theorem apply_zoom_factor_two_witness :
    holds reset_48k.statics (0x17f7427b73e391 / 2 ^ 51) (0x142bef2bec8b0e / 2 ^ 49)
      (0x17f7427b73e391 / 2 ^ 51) (0x142bef2bec8b0e / 2 ^ 49) ∧
    unmodified_key (key_press SDL_SCANCODE_J 0) SDL_SCANCODE_J ∧
    ∃ a' b', holds (loop_body libm_exp reset_48k (key_press SDL_SCANCODE_J 0)).2.statics a' b'
        (0x17f7427b73e391 / 2 ^ 51) (0x142bef2bec8b0e / 2 ^ 49) ∧
      |a' - ((0x17f7427b73e391 / 2 ^ 51 + 0x142bef2bec8b0e / 2 ^ 49) / 2
          - (0x142bef2bec8b0e / 2 ^ 49 - 0x17f7427b73e391 / 2 ^ 51) / 4)| ≤ tol ∧
      |b' - ((0x17f7427b73e391 / 2 ^ 51 + 0x142bef2bec8b0e / 2 ^ 49) / 2
          + (0x142bef2bec8b0e / 2 ^ 49 - 0x17f7427b73e391 / 2 ^ 51) / 4)| ≤ tol :=
  ⟨⟨by decide!, by decide!⟩, ⟨rfl, by decide, rfl⟩,
   (apply_zoom_factor_two libm_exp reset_48k (key_press SDL_SCANCODE_J 0) _ _ _ _
      ⟨by decide!, by decide!⟩ (by unfold limits_range; norm_num) (by norm_num)).1
      ⟨rfl, by decide, rfl⟩⟩

/-- C4, counterexample. Right after the reset at 48 kHz the viewport fills the limits, so an
unmodified H press makes the shifted band spill below the lower limit; the new band is not
flush against it (`viewport.A` ends on `0x1.7f7427b73e390p+1`, below `limits.A`), and its width
`B - A`, as a real number, is not the width before. -/
theorem apply_pan_counterexample :
    reset_48k.statics.viewport = reset_48k.statics.limits ∧
    reset_48k.statics.limits.A = Dbl.fin (0x17f7427b73e391 / 2 ^ 51) ∧
    (loop_body libm_exp reset_48k (key_press SDL_SCANCODE_H 0)).2.statics.viewport
      = { A := Dbl.fin (0x17f7427b73e390 / 2 ^ 51), B := Dbl.fin (0x142bef2bec8b0e / 2 ^ 49) } ∧
    (0x17f7427b73e390 / 2 ^ 51 : ℚ) < 0x17f7427b73e391 / 2 ^ 51 ∧
    (0x142bef2bec8b0e / 2 ^ 49 - 0x17f7427b73e390 / 2 ^ 51 : ℚ)
      ≠ 0x142bef2bec8b0e / 2 ^ 49 - 0x17f7427b73e391 / 2 ^ 51 := by
  decide!

/-- C4, amended. Pan by a quarter of the width on a finite viewport `(a, b)`, of centre
`c = (a + b) / 2` and width `w = b - a`, inside limits `(lo, hi)` within `[-32, 32]`. An
unmodified H press gives a viewport whose ends are within `2 ^ (-41)` of `c' - w / 2` and
`c' + w / 2`, where `c'` is `c - w / 4` clamped into `[lo + w / 2, hi - w / 2]`; when the
shifted band would pass the lower limit, the new `A` is within `2 ^ (-41)` of `lo`. An
unmodified L press does the same with `c + w / 4` and the upper limit. The limits are
unchanged; the width is `w` up to `2 ^ (-40)`. -/
theorem apply_pan_quarter (expf : Dbl → Dbl) (s : loop_state Dbl) (p : polled)
    (a b lo hi : ℚ) (hs : holds s.statics a b lo hi) (hr : limits_range lo hi)
    (hc : lo ≤ a ∧ a ≤ b ∧ b ≤ hi) :
    (unmodified_key p SDL_SCANCODE_H →
      ∃ a' b', holds (loop_body expf s p).2.statics a' b' lo hi ∧
        |a' - (max (lo + (b - a) / 2) (min ((a + b) / 2 - (b - a) / 4) (hi - (b - a) / 2))
              - (b - a) / 2)| ≤ tol ∧
        |b' - (max (lo + (b - a) / 2) (min ((a + b) / 2 - (b - a) / 4) (hi - (b - a) / 2))
              + (b - a) / 2)| ≤ tol ∧
        |(b' - a') - (b - a)| ≤ 2 * tol ∧
        ((a + b) / 2 - (b - a) / 4 - (b - a) / 2 < lo → |a' - lo| ≤ tol)) ∧
    (unmodified_key p SDL_SCANCODE_L →
      ∃ a' b', holds (loop_body expf s p).2.statics a' b' lo hi ∧
        |a' - (max (lo + (b - a) / 2) (min ((a + b) / 2 + (b - a) / 4) (hi - (b - a) / 2))
              - (b - a) / 2)| ≤ tol ∧
        |b' - (max (lo + (b - a) / 2) (min ((a + b) / 2 + (b - a) / 4) (hi - (b - a) / 2))
              + (b - a) / 2)| ≤ tol ∧
        |(b' - a') - (b - a)| ≤ 2 * tol ∧
        (hi < (a + b) / 2 + (b - a) / 4 + (b - a) / 2 → |b' - hi| ≤ tol)) := by
  have hex := pan_exact (fun x : ℚ => x) (exact_state a b lo hi s.sdl) p hc
  constructor
  · intro hh
    obtain ⟨hq, hw⟩ := unmodified_key_types p _ hh
    obtain ⟨a', b', h1, h2, h3⟩ := step_close_contained expf s p a b lo hi hs hr hc hq hw
    obtain ⟨e1, e2, e3, _⟩ := hex.1 hh
    obtain ⟨f1, f2⟩ := ends_of_exact (Rambajz.loop_body (fun x : ℚ => x)
      (exact_state a b lo hi s.sdl) p).2.statics.viewport
    have h2' := h2
    rw [f1, e1, e2] at h2
    rw [f2, e1, e2] at h3
    simp only [exact_state, Rambajz.centre_of, Rambajz.width_of] at h2 h3
    refine ⟨a', b', h1, h2, h3, ?_, ?_⟩
    · rw [abs_le] at h2 h3 ⊢
      constructor <;> linarith
    · intro hsp
      have e3' : (Rambajz.loop_body (fun x : ℚ => x) (exact_state a b lo hi s.sdl)
          p).2.statics.viewport.A = lo := e3 hsp
      rw [e3'] at h2'
      exact h2'
  · intro hl
    obtain ⟨hq, hw⟩ := unmodified_key_types p _ hl
    obtain ⟨a', b', h1, h2, h3⟩ := step_close_contained expf s p a b lo hi hs hr hc hq hw
    obtain ⟨e1, e2, e3, _⟩ := hex.2 hl
    obtain ⟨f1, f2⟩ := ends_of_exact (Rambajz.loop_body (fun x : ℚ => x)
      (exact_state a b lo hi s.sdl) p).2.statics.viewport
    have h3' := h3
    rw [f1, e1, e2] at h2
    rw [f2, e1, e2] at h3
    simp only [exact_state, Rambajz.centre_of, Rambajz.width_of] at h2 h3
    refine ⟨a', b', h1, h2, h3, ?_, ?_⟩
    · rw [abs_le] at h2 h3 ⊢
      constructor <;> linarith
    · intro hsp
      have e3' : (Rambajz.loop_body (fun x : ℚ => x) (exact_state a b lo hi s.sdl)
          p).2.statics.viewport.B = hi := e3 hsp
      rw [e3'] at h3'
      exact h3'

/-- Witness for C4 (amended): an H press on the viewport `(4, 5)` inside the limits `(3, 10)`;
the band moves down by a quarter of its width. -/
theorem apply_pan_quarter_witness :
    holds ({ viewport := { A := Dbl.fin 4, B := Dbl.fin 5 },
             limits := { A := Dbl.fin 3, B := Dbl.fin 10 } } : statics_t Dbl) 4 5 3 10 ∧
    limits_range 3 10 ∧ ((3 : ℚ) ≤ 4 ∧ (4 : ℚ) ≤ 5 ∧ (5 : ℚ) ≤ 10) ∧
    unmodified_key (key_press SDL_SCANCODE_H 0) SDL_SCANCODE_H ∧
    ∃ a' b', holds (loop_body libm_exp
        { statics := { viewport := { A := Dbl.fin 4, B := Dbl.fin 5 },
                       limits := { A := Dbl.fin 3, B := Dbl.fin 10 } },
          sdl := { w := 640, h := 480 } } (key_press SDL_SCANCODE_H 0)).2.statics a' b' 3 10 ∧
      |(b' - a') - (5 - 4)| ≤ 2 * tol :=
  ⟨⟨rfl, rfl⟩, by unfold limits_range; norm_num, by norm_num, ⟨rfl, by decide, rfl⟩, by
    obtain ⟨a', b', h1, _, _, h4, _⟩ :=
      (apply_pan_quarter libm_exp
        { statics := { viewport := { A := Dbl.fin 4, B := Dbl.fin 5 },
                       limits := { A := Dbl.fin 3, B := Dbl.fin 10 } },
          sdl := { w := 640, h := 480 } } (key_press SDL_SCANCODE_H 0) 4 5 3 10
        ⟨rfl, rfl⟩ (by unfold limits_range; norm_num) (by norm_num)).1 ⟨rfl, by decide, rfl⟩
    exact ⟨a', b', h1, h4⟩⟩

end B64

section ExactTwo

variable {α : Type} [LinearOrderedField α]

theorem loop_body_fst_exact (expf : α → α) (s : loop_state α) (p : polled)
    (hq : p.ev.type ≠ SDL_QUIT) : (loop_body expf s p).1 = true := by
  simp [loop_body, hq]

theorem poll_loop_two_exact (expf : α → α) (s : loop_state α) (p1 p2 : polled)
    (h1 : p1.ev.type ≠ SDL_QUIT) (h2 : p2.ev.type ≠ SDL_QUIT) :
    (poll_loop expf s [p1, p2]).2 = (loop_body expf (loop_body expf s p1).2 p2).2 := by
  have e1 : loop_body expf s p1 = (true, (loop_body expf s p1).2) := by
    rw [← loop_body_fst_exact expf s p1 h1]
  have e2 : loop_body expf (loop_body expf s p1).2 p2
      = (true, (loop_body expf (loop_body expf s p1).2 p2).2) := by
    rw [← loop_body_fst_exact expf _ p2 h2]
  rw [poll_loop, e1]
  simp only [poll_loop]
  rw [e2]

/-- In exact arithmetic lines 95-98 always write a viewport inside ordered limits. -/
theorem recentre_in_limits (lim : viewport_t α) (c w : α) :
    lim.A ≤ (recentre lim c w).A ∧ (recentre lim c w).B ≤ lim.B := by
  simp only [recentre]
  have hw : min w (lim.B - lim.A) ≤ lim.B - lim.A := min_le_right _ _
  constructor
  · have := le_max_right (min c (lim.B - min w (lim.B - lim.A) / 2))
      (lim.A + min w (lim.B - lim.A) / 2)
    linarith
  · have : max (min c (lim.B - min w (lim.B - lim.A) / 2)) (lim.A + min w (lim.B - lim.A) / 2)
        ≤ lim.B - min w (lim.B - lim.A) / 2 :=
      max_le (min_le_right _ _) (by linarith)
    linarith

end ExactTwo

namespace B64

theorem loop_body_fst (expf : Dbl → Dbl) (s : loop_state Dbl) (p : polled)
    (hq : p.ev.type ≠ SDL_QUIT) : (loop_body expf s p).1 = true := by
  simp [loop_body, hq]

theorem poll_loop_two (expf : Dbl → Dbl) (s : loop_state Dbl) (p1 p2 : polled)
    (h1 : p1.ev.type ≠ SDL_QUIT) (h2 : p2.ev.type ≠ SDL_QUIT) :
    (poll_loop expf s [p1, p2]).2 = (loop_body expf (loop_body expf s p1).2 p2).2 := by
  have e1 : loop_body expf s p1 = (true, (loop_body expf s p1).2) := by
    rw [← loop_body_fst expf s p1 h1]
  have e2 : loop_body expf (loop_body expf s p1).2 p2
      = (true, (loop_body expf (loop_body expf s p1).2 p2).2) := by
    rw [← loop_body_fst expf _ p2 h2]
  rw [poll_loop, e1]
  simp only [poll_loop]
  rw [e2]

theorem key_switch_nonneg (key : Nat) (c w : Dbl) (hw : nonneg_like w) :
    nonneg_like (key_switch key c w).2 := by
  unfold key_switch
  split_ifs
  · rw [zoom_eq, ← ofInt_two]
    exact nonneg_like_half w hw
  · rw [zoom_eq]
    exact nonneg_like_mul w _ hw (by simp [nonneg_like])
  · exact hw
  · exact hw
  · exact hw

/-- One iteration of the event loop, on any event, keeps the limits and keeps a finite
viewport that is ordered and inside the limits up to a few roundings (`eps = 2 ^ (-45)`):
`lo - 2 * eps ≤ A ≤ B ≤ hi + 5 * eps`. For a wheel event `expf` must not return a negative
value. -/
theorem loop_body_inv (expf : Dbl → Dbl) (s : loop_state Dbl) (p : polled)
    (hexp : p.ev.type = SDL_MOUSEWHEEL → ∀ y, nonneg_like (expf y))
    (a b lo hi : ℚ) (hs : holds s.statics a b lo hi) (hr : limits_range lo hi)
    (hb : lo - 2 * eps ≤ a ∧ a ≤ b ∧ b ≤ hi + 5 * eps) :
    ∃ a' b', holds (loop_body expf s p).2.statics a' b' lo hi ∧
      lo - 2 * eps ≤ a' ∧ a' ≤ b' ∧ b' ≤ hi + 5 * eps := by
  by_cases hq : p.ev.type = SDL_QUIT
  · refine ⟨a, b, ?_, hb⟩
    simp only [loop_body, hq, if_true]
    exact hs
  · obtain ⟨hv, hl⟩ := hs
    obtain ⟨r1, r2, r3⟩ := hr
    have he := eps_small
    have he0 := eps_pos
    have hd : |b - a| ≤ 256 := by
      rw [abs_le]
      constructor <;> linarith [hb.1, hb.2.1, hb.2.2]
    have hwid : width_of s.statics.viewport = Dbl.fin (fl (b - a)) := by
      rw [hv]
      simp only [width_of]
      exact sub_fin b a hd
    have hw0 : nonneg_like (width_of s.statics.viewport) := by
      rw [hwid]
      exact fl_nonneg _ (by linarith [hb.2.1])
    -- the width that reaches line 95
    have key : ∃ c1 w1, (loop_body expf s p).2.statics
        = { viewport := recentre s.statics.limits c1 w1, limits := s.statics.limits } ∧
        nonneg_like w1 := by
      have hk := key_switch_nonneg p.ev.scancode (center_of s.statics.viewport)
        (width_of s.statics.viewport) hw0
      by_cases hwh : p.ev.type = SDL_MOUSEWHEEL
      · by_cases hkey : p.ev.type = SDL_KEYDOWN ∧ (p.modstate &&& blacklist) = 0
        · exact absurd (hkey.1.symm.trans hwh) (by decide)
        · refine ⟨(wheel_update expf p.ev.wheel_x p.ev.wheel_y (center_of s.statics.viewport)
              (width_of s.statics.viewport)).1,
            (wheel_update expf p.ev.wheel_x p.ev.wheel_y (center_of s.statics.viewport)
              (width_of s.statics.viewport)).2, ?_, ?_⟩
          · simp [loop_body, hwh]
          · simp only [wheel_update]
            exact nonneg_like_mul _ _ hw0 (hexp hwh _)
      · by_cases hkey : p.ev.type = SDL_KEYDOWN ∧ (p.modstate &&& blacklist) = 0
        · refine ⟨(key_switch p.ev.scancode (center_of s.statics.viewport)
              (width_of s.statics.viewport)).1, _, ?_, hk⟩
          simp [loop_body, hkey]
        · refine ⟨center_of s.statics.viewport, _, ?_, hw0⟩
          simp [loop_body, hq, hwh, hkey]
    obtain ⟨c1, w1, hres, hw1⟩ := key
    obtain ⟨a', b', hrec, h1, h2, h3⟩ := recentre_general lo hi ⟨r1, r2, r3⟩ c1 w1 hw1
    refine ⟨a', b', ?_, h1, h2, h3⟩
    rw [hres, hl]
    exact ⟨hrec, rfl⟩

/-- The event loop of one call keeps the invariant of `loop_body_inv`. -/
theorem poll_loop_inv (expf : Dbl → Dbl) (hexp : ∀ y, nonneg_like (expf y))
    (lo hi : ℚ) (hr : limits_range lo hi) (pending : List polled) :
    ∀ (s : loop_state Dbl) (a b : ℚ), holds s.statics a b lo hi →
      (lo - 2 * eps ≤ a ∧ a ≤ b ∧ b ≤ hi + 5 * eps) →
      ∃ a' b', holds (poll_loop expf s pending).2.statics a' b' lo hi ∧
        lo - 2 * eps ≤ a' ∧ a' ≤ b' ∧ b' ≤ hi + 5 * eps := by
  induction pending with
  | nil =>
    intro s a b hs hb
    exact ⟨a, b, hs, hb⟩
  | cons p rest ih =>
    intro s a b hs hb
    obtain ⟨a1, b1, hs1, hb1⟩ := loop_body_inv expf s p (fun _ => hexp) a b lo hi hs hr hb
    unfold poll_loop
    rcases hres : loop_body expf s p with ⟨ret, s'⟩
    rw [hres] at hs1
    cases ret with
    | false => exact ⟨a1, b1, hs1, hb1⟩
    | true => exact ih s' a1 b1 hs1 hb1

theorem holds_unique (st : statics_t Dbl) (a b lo hi a' b' lo' hi' : ℚ)
    (h : holds st a b lo hi) (h' : holds st a' b' lo' hi') : a = a' ∧ b = b' := by
  obtain ⟨h1, _⟩ := h
  obtain ⟨h2, _⟩ := h'
  rw [h1] at h2
  simp only [viewport_t.mk.injEq, Dbl.fin.injEq] at h2
  exact h2

/-- Two iterations of the event loop in binary64 follow the two iterations in exact
arithmetic: from a finite viewport inside the limits, on two events other than quit and
wheel, each end of the final viewport is within `2 ^ (-38)` of the exact one. -/
theorem two_steps_close (expf : Dbl → Dbl) (s : loop_state Dbl) (p1 p2 : polled)
    (a b lo hi : ℚ) (hs : holds s.statics a b lo hi) (hr : limits_range lo hi)
    (hc : lo ≤ a ∧ a ≤ b ∧ b ≤ hi)
    (hq1 : p1.ev.type ≠ SDL_QUIT) (hw1 : p1.ev.type ≠ SDL_MOUSEWHEEL)
    (hq2 : p2.ev.type ≠ SDL_QUIT) (hw2 : p2.ev.type ≠ SDL_MOUSEWHEEL) :
    ∃ a' b', holds (poll_loop expf s [p1, p2]).2.statics a' b' lo hi ∧
      |a' - (Rambajz.poll_loop (fun x : ℚ => x) (exact_state a b lo hi s.sdl)
          [p1, p2]).2.statics.viewport.A| ≤ tol2 ∧
      |b' - (Rambajz.poll_loop (fun x : ℚ => x) (exact_state a b lo hi s.sdl)
          [p1, p2]).2.statics.viewport.B| ≤ tol2 := by
  have he := eps_small
  have he0 := eps_pos
  obtain ⟨a1, b1, g1, g2, g3⟩ := step_close_contained expf s p1 a b lo hi hs hr hc hq1 hw1
  obtain ⟨a1', b1', i1, i2, i3, i4⟩ := loop_body_inv expf s p1 (fun h => absurd h hw1)
    a b lo hi hs hr ⟨by linarith [hc.1], hc.2.1, by linarith [hc.2.2]⟩
  obtain ⟨u1, u2⟩ := holds_unique _ _ _ _ _ _ _ _ _ g1 i1
  rw [← u1] at i2 i3
  rw [← u2] at i3 i4
  have ha1 : |a1| ≤ 40 := abs_le_40 a1 lo hi hr (by linarith) (by linarith)
  have hb1 : |b1| ≤ 40 := abs_le_40 b1 lo hi hr (by linarith) (by linarith)
  -- the exact state after the first event
  have hx := Rambajz.loop_body_key_eq_exact (fun x : ℚ => x) (exact_state a b lo hi s.sdl) p1
    hq1 hw1
  have hx2 := Rambajz.loop_body_key_eq_exact (fun x : ℚ => x)
    (Rambajz.loop_body (fun x : ℚ => x) (exact_state a b lo hi s.sdl) p1).2 p2 hq2 hw2
  have hlim : (Rambajz.loop_body (fun x : ℚ => x) (exact_state a b lo hi s.sdl)
      p1).2.statics.limits = { A := lo, B := hi } := by
    rw [hx]
    rfl
  rw [hlim] at hx2
  obtain ⟨aX, haX⟩ : ∃ aX, aX = (Rambajz.loop_body (fun x : ℚ => x)
      (exact_state a b lo hi s.sdl) p1).2.statics.viewport.A := ⟨_, rfl⟩
  obtain ⟨bX, hbX⟩ : ∃ bX, bX = (Rambajz.loop_body (fun x : ℚ => x)
      (exact_state a b lo hi s.sdl) p1).2.statics.viewport.B := ⟨_, rfl⟩
  rw [← haX] at g2 hx2
  rw [← hbX] at g3 hx2
  obtain ⟨a2, b2, k1, k2, k3⟩ := step_close expf (loop_body expf s p1).2 p2 a1 b1 aX bX
    lo hi tol g1 hr ha1 hb1 g2 g3 hq2 hw2
  have hx3 := Rambajz.loop_body_key_eq_exact (fun x : ℚ => x)
    (exact_state aX bX lo hi (loop_body expf s p1).2.sdl) p2 hq2 hw2
  have hsame : (Rambajz.poll_loop (fun x : ℚ => x) (exact_state a b lo hi s.sdl)
      [p1, p2]).2.statics
      = (Rambajz.loop_body (fun x : ℚ => x)
          (exact_state aX bX lo hi (loop_body expf s p1).2.sdl) p2).2.statics := by
    rw [Rambajz.poll_loop_two_exact _ _ p1 p2 hq1 hq2, hx2, hx3]
    rfl
  rw [hsame]
  refine ⟨a2, b2, ?_, ?_, ?_⟩
  · rw [poll_loop_two expf s p1 p2 hq1 hq2]
    exact k1
  · refine le_trans k2 ?_
    rw [tol_eq, tol2_eq]
    linarith
  · refine le_trans k3 ?_
    rw [tol_eq, tol2_eq]
    linarith

/-- C9, counterexample. Right after the reset at 48 kHz, an unmodified J press followed by an
unmodified K press does not restore the viewport: `viewport.A` ends on
`0x1.7f7427b73e390p+1`, one unit in the last place below its value before. -/
theorem zoom_round_trip_counterexample :
    reset_48k.statics.viewport = reset_48k.statics.limits ∧
    reset_48k.statics.viewport
      = { A := Dbl.fin (0x17f7427b73e391 / 2 ^ 51), B := Dbl.fin (0x142bef2bec8b0e / 2 ^ 49) } ∧
    (poll_loop libm_exp reset_48k
        [key_press SDL_SCANCODE_J 0, key_press SDL_SCANCODE_K 0]).2.statics.viewport
      = { A := Dbl.fin (0x17f7427b73e390 / 2 ^ 51), B := Dbl.fin (0x142bef2bec8b0e / 2 ^ 49) } ∧
    (poll_loop libm_exp reset_48k
        [key_press SDL_SCANCODE_J 0, key_press SDL_SCANCODE_K 0]).2.statics.viewport
      ≠ reset_48k.statics.viewport := by
  decide!

/-- C9, amended. Zoom round trip on a finite viewport `(a, b)` inside limits within
`[-32, 32]`: an unmodified J press followed by an unmodified K press keeps the limits and
restores each end of the viewport up to `2 ^ (-38)`; the reverse order is not an identity,
not even approximately, whenever the zoom-out is clamped by the limits: if
`hi - lo + 2 ^ (-36) < 2 * (b - a)`, K followed by J ends on a different viewport. -/
theorem zoom_round_trip (expf : Dbl → Dbl) (s : loop_state Dbl) (pj pk : polled)
    (a b lo hi : ℚ) (hs : holds s.statics a b lo hi) (hr : limits_range lo hi)
    (hc : lo ≤ a ∧ a ≤ b ∧ b ≤ hi)
    (hj : unmodified_key pj SDL_SCANCODE_J) (hk : unmodified_key pk SDL_SCANCODE_K) :
    (∃ a' b', holds (poll_loop expf s [pj, pk]).2.statics a' b' lo hi ∧
      |a' - a| ≤ tol2 ∧ |b' - b| ≤ tol2) ∧
    (hi - lo + 4 * tol2 < 2 * (b - a) →
      (poll_loop expf s [pk, pj]).2.statics.viewport ≠ s.statics.viewport) := by
  obtain ⟨hqj, hwj⟩ := unmodified_key_types pj _ hj
  obtain ⟨hqk, hwk⟩ := unmodified_key_types pk _ hk
  have hex := round_trip_exact (fun x : ℚ => x) (exact_state a b lo hi s.sdl) pj pk hc hj hk
  constructor
  · obtain ⟨a', b', h1, h2, h3⟩ :=
      two_steps_close expf s pj pk a b lo hi hs hr hc hqj hwj hqk hwk
    rw [hex.2.1] at h2 h3
    exact ⟨a', b', h1, h2, h3⟩
  · intro hcl hsame
    obtain ⟨a', b', h1, h2, h3⟩ :=
      two_steps_close expf s pk pj a b lo hi hs hr hc hqk hwk hqj hwj
    -- the viewport is unchanged, so a' = a and b' = b
    have hv : holds (poll_loop expf s [pk, pj]).2.statics a b lo hi := by
      refine ⟨?_, h1.2⟩
      rw [hsame]
      exact hs.1
    obtain ⟨u1, u2⟩ := holds_unique _ _ _ _ _ _ _ _ _ h1 hv
    -- in exact arithmetic the width after K then J is half the width of the limits
    have hxK := zoom_exact (fun x : ℚ => x) (exact_state a b lo hi s.sdl) pk hc
    obtain ⟨e1, e2, e3, e4, _⟩ := hxK.2 hk
    have hxeq := Rambajz.loop_body_key_eq_exact (fun x : ℚ => x) (exact_state a b lo hi s.sdl) pk
      hqk hwk
    have hlimK : (Rambajz.loop_body (fun x : ℚ => x) (exact_state a b lo hi s.sdl)
        pk).2.statics.limits = { A := lo, B := hi } := by
      rw [hxeq]
      rfl
    have hwK : Rambajz.width_of (Rambajz.loop_body (fun x : ℚ => x)
        (exact_state a b lo hi s.sdl) pk).2.statics.viewport = hi - lo := by
      rw [e1]
      simp only [exact_state, Rambajz.width_of]
      exact min_eq_right (by linarith [tol2_eq, eps_pos])
    obtain ⟨f1, f2⟩ := ends_of_exact (Rambajz.loop_body (fun x : ℚ => x)
      (exact_state a b lo hi s.sdl) pk).2.statics.viewport
    have hcK : Rambajz.contained (Rambajz.loop_body (fun x : ℚ => x)
        (exact_state a b lo hi s.sdl) pk).2.statics := by
      have hin := Rambajz.recentre_in_limits ({ A := lo, B := hi } : viewport_t ℚ)
      refine ⟨?_, ?_, ?_⟩
      · rw [hlimK, hxeq]
        exact (hin _ _).1
      · rw [f1, f2, hwK]
        linarith [hr.2.1]
      · rw [hlimK, hxeq]
        exact (hin _ _).2
    have hxJ := zoom_exact (fun x : ℚ => x) (Rambajz.loop_body (fun x : ℚ => x)
      (exact_state a b lo hi s.sdl) pk).2 pj hcK
    obtain ⟨j1, _⟩ := hxJ.1 hj
    rw [hwK] at j1
    have hpl := Rambajz.poll_loop_two_exact (fun x : ℚ => x) (exact_state a b lo hi s.sdl)
      pk pj hqk hqj
    rw [hpl] at h2 h3
    simp only [Rambajz.width_of] at j1
    rw [u1] at h2
    rw [u2] at h3
    rw [abs_le] at h2 h3
    have htol := tol2_eq
    have he0 := eps_pos
    linarith

/-- Witness for C9 (amended): J then K, and K then J, right after the reset at 48 kHz. -/
theorem zoom_round_trip_witness :
    holds reset_48k.statics lo48 hi48 lo48 hi48 ∧ limits_range lo48 hi48 ∧
    unmodified_key (key_press SDL_SCANCODE_J 0) SDL_SCANCODE_J ∧
    unmodified_key (key_press SDL_SCANCODE_K 0) SDL_SCANCODE_K ∧
    (∃ a' b', holds (poll_loop libm_exp reset_48k
        [key_press SDL_SCANCODE_J 0, key_press SDL_SCANCODE_K 0]).2.statics a' b' lo48 hi48 ∧
      |a' - lo48| ≤ tol2 ∧ |b' - hi48| ≤ tol2) ∧
    (poll_loop libm_exp reset_48k
        [key_press SDL_SCANCODE_K 0, key_press SDL_SCANCODE_J 0]).2.statics.viewport
      ≠ reset_48k.statics.viewport :=
  ⟨holds_reset_48k, limits_range_48k, ⟨rfl, by decide, rfl⟩, ⟨rfl, by decide, rfl⟩,
   (zoom_round_trip libm_exp reset_48k (key_press SDL_SCANCODE_J 0) (key_press SDL_SCANCODE_K 0)
      lo48 hi48 lo48 hi48 holds_reset_48k limits_range_48k
      (by rw [lo48, hi48]; norm_num) ⟨rfl, by decide, rfl⟩ ⟨rfl, by decide, rfl⟩).1,
   (zoom_round_trip libm_exp reset_48k (key_press SDL_SCANCODE_J 0) (key_press SDL_SCANCODE_K 0)
      lo48 hi48 lo48 hi48 holds_reset_48k limits_range_48k
      (by rw [lo48, hi48]; norm_num) ⟨rfl, by decide, rfl⟩ ⟨rfl, by decide, rfl⟩).2
      (by rw [tol2, lo48, hi48]; norm_num)⟩

end B64

/-! ## The viewport across calls of `process`, in binary64 -/

namespace B64

theorem ofInt_20 : Dbl.ofInt 20 = Dbl.fin 20 := by
  have := ofInt_small 20 (by norm_num)
  simpa using this

theorem lazy_reset_init (logf : Dbl → Dbl) (sample_rate : Dbl) :
    lazy_reset logf sample_rate statics_init =
      { viewport := { A := logf (Dbl.fin 20), B := logf (max_freq_of sample_rate) },
        limits := { A := logf (Dbl.fin 20), B := logf (max_freq_of sample_rate) } } := by
  simp [lazy_reset, statics_init, Dbl.isnan, ofInt_20]

theorem lazy_reset_holds (logf : Dbl → Dbl) (sample_rate : Dbl) (st : statics_t Dbl)
    (a b lo hi : ℚ) (h : holds st a b lo hi) : lazy_reset logf sample_rate st = st := by
  obtain ⟨hv, _⟩ := h
  simp [lazy_reset, hv, Dbl.isnan]

theorem process_inv (expf logf : Dbl → Dbl) (sample_rate : Dbl) (lo hi : ℚ)
    (hlo : logf (Dbl.fin 20) = Dbl.fin lo) (hhi : logf (max_freq_of sample_rate) = Dbl.fin hi)
    (hr : limits_range lo hi) (hexp : ∀ y, nonneg_like (expf y))
    (st : statics_t Dbl) (sdl : sdl_state_t) (pending : List polled)
    (hst : st = statics_init ∨ near_inside st lo hi) :
    near_inside (process expf logf sample_rate st sdl pending).statics lo hi ∧
      ∀ p, (process expf logf sample_rate st sdl pending).analysed = some p →
        ranged expf lo hi p := by
  have he0 := eps_pos
  have hstart : near_inside (lazy_reset logf sample_rate st) lo hi := by
    rcases hst with h | h
    · rw [h, lazy_reset_init, hlo, hhi]
      exact ⟨lo, hi, ⟨rfl, rfl⟩, by linarith, hr.2.1, by linarith⟩
    · obtain ⟨a, b, hh, hb⟩ := h
      rw [lazy_reset_holds logf sample_rate st a b lo hi hh]
      exact ⟨a, b, hh, hb⟩
  obtain ⟨a, b, hh, hb⟩ := hstart
  obtain ⟨a', b', hh', hb'⟩ := poll_loop_inv expf hexp lo hi hr pending
    { statics := lazy_reset logf sample_rate st, sdl := sdl } a b hh hb
  rcases hres : poll_loop expf { statics := lazy_reset logf sample_rate st, sdl := sdl } pending
    with ⟨ret, s'⟩
  rw [hres] at hh'
  simp only [process, hres]
  cases ret with
  | false =>
    refine ⟨⟨a', b', hh', hb'⟩, ?_⟩
    intro p hp
    simp at hp
  | true =>
    refine ⟨⟨a', b', hh', hb'⟩, ?_⟩
    intro p hp
    simp only [Option.some.injEq] at hp
    refine ⟨a', b', hb'.1, hb'.2.1, hb'.2.2, ?_⟩
    rw [← hp, hh'.1]

theorem main_loop_inv (expf logf : Dbl → Dbl) (sample_rate : Dbl) (lo hi : ℚ)
    (hlo : logf (Dbl.fin 20) = Dbl.fin lo) (hhi : logf (max_freq_of sample_rate) = Dbl.fin hi)
    (hr : limits_range lo hi) (hexp : ∀ y, nonneg_like (expf y))
    (calls : List (List polled)) :
    ∀ m : main_state, main_inv expf lo hi m →
      main_inv expf lo hi (main_loop expf logf sample_rate m calls) ∧
        (calls ≠ [] ∨ near_inside m.statics lo hi →
          near_inside (main_loop expf logf sample_rate m calls).statics lo hi) := by
  induction calls with
  | nil =>
    intro m hm
    refine ⟨hm, ?_⟩
    intro h
    rcases h with h | h
    · exact absurd rfl h
    · exact h
  | cons pending rest ih =>
    intro m hm
    have hp := process_inv expf logf sample_rate lo hi hlo hhi hr hexp m.statics m.sdl pending
      hm.1
    have hm' : main_inv expf lo hi
        { statics := (process expf logf sample_rate m.statics m.sdl pending).statics,
          sdl := (process expf logf sample_rate m.statics m.sdl pending).sdl,
          analysed := m.analysed
            ++ (process expf logf sample_rate m.statics m.sdl pending).analysed.toList } := by
      refine ⟨Or.inr hp.1, ?_⟩
      intro p hmem
      rcases List.mem_append.1 hmem with h | h
      · exact hm.2 p h
      · exact hp.2 p (by simpa [Option.mem_toList] using h)
    simp only [main_loop]
    by_cases hret : (process expf logf sample_rate m.statics m.sdl pending).ret = true
    · rw [if_pos hret]
      exact ⟨(ih _ hm').1, fun _ => (ih _ hm').2 (Or.inr hp.1)⟩
    · rw [if_neg hret]
      exact ⟨hm', fun _ => hp.1⟩

/-- C1, counterexample. At 48 kHz, with the logarithms glibc returns: after a first call of
`process` whose only event is a J press with shift held, `viewport.A` is below `limits.A`; and
after a first call with 53 unmodified J presses, `viewport.A` equals `viewport.B`, so the range
`(exp A, exp B)` handed to `analyse` has equal ends. -/
theorem viewport_containment_counterexample :
    Dbl.blt (main libm_exp libm_log (Dbl.fin 48000) { w := 640, h := 480 }
        [[key_press SDL_SCANCODE_J 1]]).statics.viewport.A
      (main libm_exp libm_log (Dbl.fin 48000) { w := 640, h := 480 }
        [[key_press SDL_SCANCODE_J 1]]).statics.limits.A = true ∧
    (main libm_exp libm_log (Dbl.fin 48000) { w := 640, h := 480 }
        [List.replicate 53 (key_press SDL_SCANCODE_J 0)]).statics.viewport.A
      = (main libm_exp libm_log (Dbl.fin 48000) { w := 640, h := 480 }
        [List.replicate 53 (key_press SDL_SCANCODE_J 0)]).statics.viewport.B := by
  decide!

/-- C1, amended. Assume the logarithms of 20 and of `sample_rate / 2` are finite values
`lo ≤ hi` within `[-32, 32]` and `expf` returns no negative value. Whatever events are
pending in whatever non-empty sequence of calls of `process` that `main` makes, the limits are
`(lo, hi)` and the viewport is finite (never NaN), ordered, and inside the limits up to a few
roundings: `lo - 2 * eps ≤ A ≤ B ≤ hi + 5 * eps` with `eps = 2 ^ (-45)`; every range handed to
`analyse` is `(expf A, expf B)` for such a viewport; and each single iteration of the event
loop, on any event, keeps these properties. Neither `A < B` nor `lo ≤ A` is guaranteed. -/
theorem viewport_containment (expf logf : Dbl → Dbl) (sample_rate : Dbl) (lo hi : ℚ)
    (hlo : logf (Dbl.fin 20) = Dbl.fin lo) (hhi : logf (max_freq_of sample_rate) = Dbl.fin hi)
    (hr : limits_range lo hi) (hexp : ∀ y, nonneg_like (expf y))
    (sdl : sdl_state_t) (calls : List (List polled)) :
    (calls ≠ [] → near_inside (main expf logf sample_rate sdl calls).statics lo hi) ∧
    (∀ p ∈ (main expf logf sample_rate sdl calls).analysed, ranged expf lo hi p) ∧
    (∀ (s : loop_state Dbl) (p : polled), near_inside s.statics lo hi →
      near_inside (loop_body expf s p).2.statics lo hi) := by
  have h0 : main_inv expf lo hi { statics := statics_init, sdl := sdl, analysed := [] } := by
    refine ⟨Or.inl rfl, ?_⟩
    intro p hp
    cases hp
  have hinv := main_loop_inv expf logf sample_rate lo hi hlo hhi hr hexp calls _ h0
  refine ⟨fun hne => hinv.2 (Or.inl hne), hinv.1.2, ?_⟩
  intro s p hs
  obtain ⟨a, b, hh, hb⟩ := hs
  exact loop_body_inv expf s p (fun _ => hexp) a b lo hi hh hr hb

theorem nonneg_like_libm_exp (y : Dbl) : nonneg_like (libm_exp y) := by
  unfold libm_exp
  split_ifs
  · simp only [nonneg_like]
    norm_num
  · simp only [nonneg_like]
    norm_num
  · simp only [nonneg_like]
    norm_num
  · trivial

/-- Witness for C1 (amended): 48 kHz with the logarithms glibc returns; a first call with a J
press and a wheel event, a second call with an H press. -/
theorem viewport_containment_witness :
    libm_log (Dbl.fin 20) = Dbl.fin lo48 ∧
    libm_log (max_freq_of (Dbl.fin 48000)) = Dbl.fin hi48 ∧
    limits_range lo48 hi48 ∧ (∀ y, nonneg_like (libm_exp y)) ∧
    near_inside (main libm_exp libm_log (Dbl.fin 48000) { w := 640, h := 480 }
      [[key_press SDL_SCANCODE_J 0, wheel 1 (-2)], [key_press SDL_SCANCODE_H 0]]).statics
      lo48 hi48 :=
  ⟨by decide!, by decide!, limits_range_48k, nonneg_like_libm_exp,
   (viewport_containment libm_exp libm_log (Dbl.fin 48000) lo48 hi48 (by decide!) (by decide!)
      limits_range_48k nonneg_like_libm_exp { w := 640, h := 480 }
      [[key_press SDL_SCANCODE_J 0, wheel 1 (-2)], [key_press SDL_SCANCODE_H 0]]).1 (by simp)⟩

/-- C7, counterexample. At 48 kHz, with the values glibc returns for `log` and `exp`, the
range handed to `analyse` on the first call with no pending events is
`(0x1.3ffffffffffffp+4, 0x1.76ffffffffffcp+14)`, that is 19.999999999999996 and
23999.999999999985, not `(20, 24000)`. And at a sample rate of 0, where `log (0 / 2)` is
`-inf`, a first call that handles one event (a J press with shift held) leaves `viewport.A`
NaN, so that the next call takes the reset branch again. -/
theorem lazy_reset_counterexample :
    (main libm_exp libm_log (Dbl.fin 48000) { w := 640, h := 480 } [[]]).analysed
      = [{ min_freq := Dbl.fin (0x13ffffffffffff / 2 ^ 48),
           max_freq := Dbl.fin (0x176ffffffffffc / 2 ^ 38) }] ∧
    (main libm_exp libm_log (Dbl.fin 48000) { w := 640, h := 480 } [[]]).analysed
      ≠ [{ min_freq := Dbl.fin 20, max_freq := max_freq_of (Dbl.fin 48000) }] ∧
    (0x13ffffffffffff / 2 ^ 48 : ℚ) < 20 ∧ (0x176ffffffffffc / 2 ^ 38 : ℚ) < 24000 ∧
    (main libm_exp libm_log (Dbl.fin 0) { w := 640, h := 480 }
      [[key_press SDL_SCANCODE_J 1]]).statics.viewport.A.isnan = true ∧
    lazy_reset libm_log (Dbl.fin 0)
        (main libm_exp libm_log (Dbl.fin 0) { w := 640, h := 480 }
          [[key_press SDL_SCANCODE_J 1]]).statics
      ≠ (main libm_exp libm_log (Dbl.fin 0) { w := 640, h := 480 }
          [[key_press SDL_SCANCODE_J 1]]).statics := by
  decide!

/-- C7, amended. Lazy reset: on the first call of `process` (statics `{NAN, NAN}`), with no
pending events, viewport and limits are both set to `(log 20, log (sample_rate / 2))` as the
C library computes them, the call returns `true`, and the range handed to `analyse` is
`(exp (log 20), exp (log (sample_rate / 2)))`, which need not be `(20, sample_rate / 2)`
exactly. The reset branch is taken only while `viewport.A` is NaN; when the two logarithms are
finite values `lo ≤ hi` within `[-32, 32]` and `expf` returns no negative value, after any
non-empty sequence of calls `viewport.A` is not NaN, so the next call does not reset and starts
from the statics the previous call left. -/
theorem lazy_reset_once (expf logf : Dbl → Dbl) (sample_rate : Dbl) (sdl : sdl_state_t) :
    process expf logf sample_rate statics_init sdl [] =
      { ret := true,
        statics := { viewport := { A := logf (Dbl.fin 20), B := logf (max_freq_of sample_rate) },
                     limits := { A := logf (Dbl.fin 20), B := logf (max_freq_of sample_rate) } },
        sdl := sdl,
        analysed := some { min_freq := expf (logf (Dbl.fin 20)),
                           max_freq := expf (logf (max_freq_of sample_rate)) } } ∧
    (∀ st : statics_t Dbl, st.viewport.A.isnan = false →
      lazy_reset logf sample_rate st = st) ∧
    (∀ lo hi : ℚ, logf (Dbl.fin 20) = Dbl.fin lo → logf (max_freq_of sample_rate) = Dbl.fin hi →
      limits_range lo hi → (∀ y, nonneg_like (expf y)) →
      ∀ calls : List (List polled), calls ≠ [] →
        (main expf logf sample_rate sdl calls).statics.viewport.A.isnan = false ∧
        lazy_reset logf sample_rate (main expf logf sample_rate sdl calls).statics
          = (main expf logf sample_rate sdl calls).statics ∧
        ∀ (sdl' : sdl_state_t),
          (process expf logf sample_rate (main expf logf sample_rate sdl calls).statics
            sdl' []).statics = (main expf logf sample_rate sdl calls).statics) := by
  refine ⟨?_, ?_, ?_⟩
  · simp only [process, lazy_reset_init, poll_loop]
  · intro st h
    simp [lazy_reset, h]
  · intro lo hi hlo hhi hr hexp calls hne
    have h0 : main_inv expf lo hi { statics := statics_init, sdl := sdl, analysed := [] } := by
      refine ⟨Or.inl rfl, ?_⟩
      intro p hp
      cases hp
    have hinv := (main_loop_inv expf logf sample_rate lo hi hlo hhi hr hexp calls _ h0).2
      (Or.inl hne)
    obtain ⟨a, b, hh, _⟩ := hinv
    have hm : main expf logf sample_rate sdl calls
        = main_loop expf logf sample_rate
            { statics := statics_init, sdl := sdl, analysed := [] } calls := rfl
    rw [← hm] at hh
    have hl := lazy_reset_holds logf sample_rate _ a b lo hi hh
    refine ⟨?_, hl, ?_⟩
    · rw [hh.1]
      rfl
    · intro sdl'
      simp only [process, hl, poll_loop]

/-- Witness for C7 (amended): 48 kHz with the values glibc returns; the statics after a first
call with a J press are kept by a second call with no events. -/
theorem lazy_reset_once_witness :
    libm_log (Dbl.fin 20) = Dbl.fin lo48 ∧
    libm_log (max_freq_of (Dbl.fin 48000)) = Dbl.fin hi48 ∧
    limits_range lo48 hi48 ∧ (∀ y, nonneg_like (libm_exp y)) ∧
    (main libm_exp libm_log (Dbl.fin 48000) { w := 640, h := 480 }
      [[key_press SDL_SCANCODE_J 0]]).statics.viewport.A.isnan = false ∧
    lazy_reset libm_log (Dbl.fin 48000)
        (main libm_exp libm_log (Dbl.fin 48000) { w := 640, h := 480 }
          [[key_press SDL_SCANCODE_J 0]]).statics
      = (main libm_exp libm_log (Dbl.fin 48000) { w := 640, h := 480 }
          [[key_press SDL_SCANCODE_J 0]]).statics :=
  ⟨by decide!, by decide!, limits_range_48k, nonneg_like_libm_exp,
   ((lazy_reset_once libm_exp libm_log (Dbl.fin 48000) { w := 640, h := 480 }).2.2 lo48 hi48
      (by decide!) (by decide!) limits_range_48k nonneg_like_libm_exp
      [[key_press SDL_SCANCODE_J 0]] (by simp)).1,
   ((lazy_reset_once libm_exp libm_log (Dbl.fin 48000) { w := 640, h := 480 }).2.2 lo48 hi48
      (by decide!) (by decide!) limits_range_48k nonneg_like_libm_exp
      [[key_press SDL_SCANCODE_J 0]] (by simp)).2.1⟩

end B64

/-! ## The geometry of `plot_interval` in binary64 -/

namespace B64

theorem ofInt_zero : Dbl.ofInt 0 = Dbl.fin 0 := by
  have := ofInt_small 0 (by norm_num)
  simpa using this

theorem ofInt_one : Dbl.ofInt 1 = Dbl.fin 1 := by
  have := ofInt_small 1 (by norm_num)
  simpa using this

theorem ble_fin (a b : ℚ) : Dbl.ble (Dbl.fin a) (Dbl.fin b) = decide (a ≤ b) := rfl

/-- The clamp `fmin(1, fmax(0, x))` of lines 116-117 gives a finite value in `[0, 1]` for
every double, NaN and the infinities included. -/
theorem clamp_unit (x : Dbl) :
    ∃ q, fmin (Dbl.ofInt 1) (fmax (Dbl.ofInt 0) x) = Dbl.fin q ∧ 0 ≤ q ∧ q ≤ 1 := by
  rw [ofInt_zero, ofInt_one]
  cases x with
  | fin a =>
    refine ⟨min 1 (max 0 a), by rw [fmax_fin, fmin_fin], ?_, min_le_left _ _⟩
    exact le_min zero_le_one (le_max_left _ _)
  | pinf => exact ⟨1, by simp [fmin, fmax, Dbl.isnan, Dbl.blt], zero_le_one, le_refl _⟩
  | ninf =>
    refine ⟨0, ?_, le_refl _, zero_le_one⟩
    simp [fmin, fmax, Dbl.isnan, Dbl.blt]
  | nan =>
    refine ⟨0, ?_, le_refl _, zero_le_one⟩
    simp [fmin, fmax, Dbl.isnan, Dbl.blt]

theorem ofInt_int32 (n : Int) (h : -2 ^ 31 ≤ n ∧ n < 2 ^ 31) : Dbl.ofInt n = Dbl.fin n := by
  have habs : |n| < 2 ^ 53 := by
    rw [abs_lt]
    constructor <;> omega
  unfold Dbl.ofInt
  have hq : |(n : ℚ)| ≤ pow2 1000 := by
    have h1 : |(n : ℚ)| < 2 ^ 53 := by exact_mod_cast habs
    have h2 : (2 : ℚ) ^ 53 = pow2 53 := by
      rw [pow2_eq]
      norm_cast
    rw [h2] at h1
    exact le_trans h1.le (pow2_le_pow2 (by norm_num))
  rw [round64_fin _ hq, fl_int n habs]

/-- Converting an integral double that fits gives that integer. -/
theorem to_int_round (v : ℚ) (h : -2 ^ 31 ≤ round_away v ∧ round_away v < 2 ^ 31) :
    to_int (c_round (Dbl.fin v)) = some (round_away v) := by
  simp only [c_round, to_int]
  have e : (if (0 : ℚ) ≤ (round_away v : ℚ) then ⌊(round_away v : ℚ)⌋
      else -⌊-(round_away v : ℚ)⌋) = round_away v := by
    split_ifs
    · exact Int.floor_intCast _
    · rw [← Int.cast_neg, Int.floor_intCast]
      ring
  rw [e, if_pos h]

/-- Line 125: the difference of an integral double and an `int`, both of 32 bits, is exact in
`double`, and its conversion to `int` is defined when it fits. -/
theorem to_int_diff (v : ℚ) (r : Int) (hr : -2 ^ 31 ≤ r ∧ r < 2 ^ 31)
    (hd : -2 ^ 31 ≤ round_away v - r ∧ round_away v - r < 2 ^ 31) :
    to_int (Dbl.sub (c_round (Dbl.fin v)) (Dbl.ofInt r)) = some (round_away v - r) := by
  rw [ofInt_int32 r hr]
  simp only [c_round, Dbl.sub, Dbl.neg, Dbl.add]
  have e : (round_away v : ℚ) + -(r : ℚ) = ((round_away v - r : Int) : ℚ) := by
    push_cast
    ring
  have habs : |round_away v - r| < 2 ^ 53 := by
    rw [abs_lt]
    constructor <;> omega
  have hq : |((round_away v - r : Int) : ℚ)| ≤ pow2 1000 := by
    have h1 : |((round_away v - r : Int) : ℚ)| < 2 ^ 53 := by exact_mod_cast habs
    have h2 : (2 : ℚ) ^ 53 = pow2 53 := by
      rw [pow2_eq]
      norm_cast
    rw [h2] at h1
    exact le_trans h1.le (pow2_le_pow2 (by norm_num))
  rw [e, round64_fin _ hq, fl_int _ habs]
  simp only [to_int]
  have e2 : (if (0 : ℚ) ≤ ((round_away v - r : Int) : ℚ) then ⌊((round_away v - r : Int) : ℚ)⌋
      else -⌊-((round_away v - r : Int) : ℚ)⌋) = round_away v - r := by
    split_ifs
    · exact Int.floor_intCast _
    · rw [← Int.cast_neg, Int.floor_intCast]
      ring
  rw [e2, if_pos hd]

/-- Rounding a value between 0 and the integer `w` gives an integer between 0 and `w`. -/
theorem round_away_mem (w : Int) (t : ℚ) (h0 : 0 ≤ t) (hw : t ≤ (w : ℚ)) :
    0 ≤ round_away t ∧ round_away t ≤ w := by
  unfold round_away
  rw [if_pos h0]
  constructor
  · exact Int.floor_nonneg.2 (by linarith)
  · have h : ⌊t + 1 / 2⌋ < w + 1 := by
      rw [Int.floor_lt]
      push_cast
      linarith
    omega

/-- The product `sdl_state.w * x` of lines 124-125 for a window width that fits an `int` and
a clamped `x`: finite, and between 0 and the width. -/
theorem width_product (w : Int) (c : ℚ) (hw : 0 ≤ w ∧ w < 2 ^ 31) (h0 : 0 ≤ c) (h1 : c ≤ 1) :
    Dbl.mul (Dbl.ofInt w) (Dbl.fin c) = Dbl.fin (fl ((w : ℚ) * c)) ∧
      0 ≤ fl ((w : ℚ) * c) ∧ fl ((w : ℚ) * c) ≤ (w : ℚ) := by
  have hwq : (0 : ℚ) ≤ (w : ℚ) := by exact_mod_cast hw.1
  have hwlt : (w : ℚ) < 2 ^ 31 := by exact_mod_cast hw.2
  have hle : (w : ℚ) * c ≤ (w : ℚ) := by
    calc (w : ℚ) * c ≤ (w : ℚ) * 1 := mul_le_mul_of_nonneg_left h1 hwq
      _ = (w : ℚ) := mul_one _
  have hnn : 0 ≤ (w : ℚ) * c := mul_nonneg hwq h0
  have hfw : fl (w : ℚ) = w := by
    apply fl_int
    rw [abs_lt]
    constructor <;> omega
  refine ⟨?_, fl_nonneg _ hnn, ?_⟩
  · rw [ofInt_int32 w ⟨by omega, hw.2⟩]
    simp only [Dbl.mul]
    apply round64_fin
    rw [abs_of_nonneg hnn]
    have h2 : (2 : ℚ) ^ 31 = pow2 31 := by
      rw [pow2_eq]
      norm_cast
    have h3 : pow2 31 ≤ pow2 1000 := pow2_le_pow2 (by norm_num)
    linarith
  · have := fl_mono hle
    rw [hfw] at this
    exact this

/-- C10, counterexample. In a 640 x 480 window, `plot_interval(0.25, 0.5, 1e10)` passes the
early return, but `round(h * y)` is 4800000000000, which no `int` holds: the conversion of
line 122 is undefined, and no rectangle of that height is drawn. And in a window of width 5,
with the doubles nearest to 0.3 and 0.9, the rectangle drawn has left edge 2 and width 3,
whereas the real product `5 * x0` is below `1.5` and rounds to 1, and
`max 1 (round (5 * x1) - round (5 * x0))` is 4. -/
theorem plot_interval_counterexample :
    plot_interval { w := 640, h := 480 } (Dbl.fin (1 / 4)) (Dbl.fin (1 / 2)) (Dbl.fin (10 ^ 10))
      = plot_result.undefined ∧
    c_round (Dbl.mul (Dbl.ofInt 480) (Dbl.fin (10 ^ 10))) = Dbl.fin 4800000000000 ∧
    (2 : Int) ^ 31 ≤ 4800000000000 ∧
    plot_interval { w := 5, h := 480 } (Dbl.fin (0x13333333333333 / 2 ^ 54))
        (Dbl.fin (0x1ccccccccccccd / 2 ^ 53)) (Dbl.fin (1 / 2))
      = plot_result.drawn { x := 2, y := 240, w := 3, h := 240 } ∧
    round_away (5 * (0x13333333333333 / 2 ^ 54)) = 1 ∧
    max 1 (round_away (5 * (0x1ccccccccccccd / 2 ^ 53))
      - round_away (5 * (0x13333333333333 / 2 ^ 54))) = 4 := by
  decide!

/-- C10, amended. Geometry of `plot_interval` for a window width `w` with `0 ≤ w < 2 ^ 31`.
The clamps of lines 116-117 give finite `c0`, `c1` in `[0, 1]` for all doubles `x0`, `x1`.
Nothing is drawn when both are `≤ 0` or both are `≥ 1`. Otherwise, provided the double product
`h * y` is a finite value `v` such that `round v` and `h - round v` fit an `int`, exactly one
rectangle is drawn: its left edge is `round (w * c0)`, with the product rounded to double, and
lies in `[0, w]`; its width is `max 1 (round (w * c1) - round (w * c0))`, hence at least 1; its
height is `round v`; and its bottom edge is the bottom of the window
(`rect.y + rect.h = h`). -/
theorem plot_interval_geometry (sdl : sdl_state_t) (x0 x1 y : Dbl)
    (hw : 0 ≤ sdl.w ∧ sdl.w < 2 ^ 31) :
    ∃ c0 c1 : ℚ,
      fmin (Dbl.ofInt 1) (fmax (Dbl.ofInt 0) x0) = Dbl.fin c0 ∧
      fmin (Dbl.ofInt 1) (fmax (Dbl.ofInt 0) x1) = Dbl.fin c1 ∧
      0 ≤ c0 ∧ c0 ≤ 1 ∧ 0 ≤ c1 ∧ c1 ≤ 1 ∧
      ((c0 ≤ 0 ∧ c1 ≤ 0) ∨ (1 ≤ c0 ∧ 1 ≤ c1) →
        plot_interval sdl x0 x1 y = plot_result.skipped) ∧
      (¬ ((c0 ≤ 0 ∧ c1 ≤ 0) ∨ (1 ≤ c0 ∧ 1 ≤ c1)) →
        ∀ v : ℚ, Dbl.mul (Dbl.ofInt sdl.h) y = Dbl.fin v →
          (-2 ^ 31 ≤ round_away v ∧ round_away v < 2 ^ 31) →
          (-2 ^ 31 ≤ sdl.h - round_away v ∧ sdl.h - round_away v < 2 ^ 31) →
          ∃ rect, plot_interval sdl x0 x1 y = plot_result.drawn rect ∧
            rect.x = round_away (fl ((sdl.w : ℚ) * c0)) ∧
            0 ≤ rect.x ∧ rect.x ≤ sdl.w ∧
            rect.w = max 1 (round_away (fl ((sdl.w : ℚ) * c1))
              - round_away (fl ((sdl.w : ℚ) * c0))) ∧
            1 ≤ rect.w ∧
            rect.h = round_away v ∧
            rect.y + rect.h = sdl.h) := by
  obtain ⟨c0, hc0, h00, h01⟩ := clamp_unit x0
  obtain ⟨c1, hc1, h10, h11⟩ := clamp_unit x1
  refine ⟨c0, c1, hc0, hc1, h00, h01, h10, h11, ?_, ?_⟩
  · intro h
    unfold plot_interval
    rw [hc0, hc1, ofInt_zero, ofInt_one]
    simp only [ble_fin, decide_eq_true_eq]
    rw [if_pos h]
  · intro h v hv hH hY
    obtain ⟨p0, p0a, p0b⟩ := width_product sdl.w c0 hw h00 h01
    obtain ⟨p1, p1a, p1b⟩ := width_product sdl.w c1 hw h10 h11
    obtain ⟨r0a, r0b⟩ := round_away_mem sdl.w _ p0a p0b
    obtain ⟨r1a, r1b⟩ := round_away_mem sdl.w _ p1a p1b
    have t0 := to_int_round (fl ((sdl.w : ℚ) * c0)) ⟨by omega, by omega⟩
    have tH := to_int_round v hH
    have hi1 : int32 (sdl.h - round_away v) = some (sdl.h - round_away v) := by
      simp only [int32]
      rw [if_pos hY]
    have hi2 : to_int (Dbl.sub (c_round (Dbl.fin (fl ((sdl.w : ℚ) * c1))))
          (Dbl.ofInt (round_away (fl ((sdl.w : ℚ) * c0)))))
        = some (round_away (fl ((sdl.w : ℚ) * c1)) - round_away (fl ((sdl.w : ℚ) * c0))) :=
      to_int_diff _ _ ⟨by omega, by omega⟩ ⟨by omega, by omega⟩
    refine ⟨{ x := round_away (fl ((sdl.w : ℚ) * c0)),
              y := sdl.h - round_away v,
              w := if round_away (fl ((sdl.w : ℚ) * c1)) - round_away (fl ((sdl.w : ℚ) * c0)) ≤ 0
                   then 1
                   else round_away (fl ((sdl.w : ℚ) * c1)) - round_away (fl ((sdl.w : ℚ) * c0)),
              h := round_away v }, ?_, rfl, r0a, r0b, ?_, ?_, rfl, ?_⟩
    · unfold plot_interval
      rw [hc0, hc1, ofInt_zero, ofInt_one]
      simp only [ble_fin, decide_eq_true_eq]
      rw [if_neg h, hv, tH]
      simp only [hi1, p0, t0, p1, hi2]
    · simp only []
      split_ifs with hle
      · exact (max_eq_left (by omega)).symm
      · exact (max_eq_right (by omega)).symm
    · simp only []
      split_ifs with hle
      · exact le_refl _
      · omega
    · simp only []
      omega

/-- Witness for C10 (amended): a window of width 5, `x0 = 0.3`, `x1 = 0.9` (as doubles) and
`y = 1/2`; the product `5 * 0.3` rounds to `1.5`, so the left edge is 2 and the width 3. -/
theorem plot_interval_geometry_witness :
    ((0 : Int) ≤ 5 ∧ (5 : Int) < 2 ^ 31) ∧
    plot_interval { w := 5, h := 480 } (Dbl.fin (0x13333333333333 / 2 ^ 54))
        (Dbl.fin (0x1ccccccccccccd / 2 ^ 53)) (Dbl.fin (1 / 2))
      = plot_result.drawn { x := 2, y := 240, w := 3, h := 240 } ∧
    ∃ c0 c1 : ℚ,
      fmin (Dbl.ofInt 1) (fmax (Dbl.ofInt 0) (Dbl.fin (0x13333333333333 / 2 ^ 54))) = Dbl.fin c0 ∧
      fmin (Dbl.ofInt 1) (fmax (Dbl.ofInt 0) (Dbl.fin (0x1ccccccccccccd / 2 ^ 53))) = Dbl.fin c1 ∧
      0 ≤ c0 ∧ c0 ≤ 1 ∧ 0 ≤ c1 ∧ c1 ≤ 1 := by
  refine ⟨by decide, by decide!, ?_⟩
  obtain ⟨c0, c1, h1, h2, h3, h4, h5, h6, _⟩ :=
    plot_interval_geometry { w := 5, h := 480 } (Dbl.fin (0x13333333333333 / 2 ^ 54))
      (Dbl.fin (0x1ccccccccccccd / 2 ^ 53)) (Dbl.fin (1 / 2)) (by decide)
  exact ⟨c0, c1, h1, h2, h3, h4, h5, h6⟩

end B64

/-! ## The wheel and the startup in binary64

The two facts below restate, over the binary64 definitions, what the sections on the wheel and
on the startup establish in exact arithmetic. -/

namespace B64

/-- Lines 86-98 in binary64, term by term: on a wheel event the centre is moved by the width
the viewport had before the event, the width is then scaled by `exp(-dy * yf)`, and the clamp
is applied last. -/
theorem wheel_event_terms (expf : Dbl → Dbl) (s : loop_state Dbl) (p : polled)
    (hw : p.ev.type = SDL_MOUSEWHEEL) :
    loop_body expf s p =
      (true, { statics :=
                 { viewport := recentre s.statics.limits
                     (Dbl.add (center_of s.statics.viewport)
                       (Dbl.mul (width_of s.statics.viewport)
                         (Dbl.mul (Dbl.ofInt (-p.ev.wheel_x)) xf)))
                     (Dbl.mul (width_of s.statics.viewport)
                       (expf (Dbl.mul (Dbl.ofInt (-p.ev.wheel_y)) yf))),
                   limits := s.statics.limits },
               sdl := s.sdl }) := by
  simp [loop_body, hw, wheel_update]

/-- At a sample rate of 40 Hz, with the values glibc returns, the first call of `process`
hands `analyse` a range whose two ends are the same double, 19.999999999999996: the loop of
`main` is entered and no check of the rate precedes it. -/
theorem startup_40hz_range :
    (main libm_exp libm_log (Dbl.fin 40) { w := 640, h := 480 } [[]]).analysed
      = [{ min_freq := Dbl.fin (0x13ffffffffffff / 2 ^ 48),
           max_freq := Dbl.fin (0x13ffffffffffff / 2 ^ 48) }] := by
  decide!

end B64

end Rambajz
